import Mathlib

/-!
Verification of the Gauss / Gauss-Jordan elimination library (`src/lib.rs`).

The matrix type `Vec<Vec<f32>>` is modelled as `List (List ℚ)`: a list of rows,
each row a list of column entries.  Scalar values are modelled by the exact
field `ℚ`, matching the library's abstract Scalar capability set (zero, one,
add, subtract, multiply, divide, zero-test, copy); floating-point rounding is
outside the scope of this development.

Two embeddings are provided:
* a total one (`gauss_elimination`, `gauss_jordan_elimination`) in which an
  out-of-range read yields `0` and an out-of-range write is dropped — adequate
  for rectangular matrices with at least as many columns as rows, on which the
  Rust code never indexes out of bounds (this is proved below via the checked
  embedding); and
* a checked one (`gauss_eliminationC`, `gauss_jordan_eliminationC`) returning
  `Option`, in which every index access mirrors the Rust bounds check (a panic
  becomes `none`) and every division is guarded by a nonzero test on the
  divisor, so that `some` results certify the absence of out-of-bounds
  accesses and of divisions by zero.
-/

/-- A matrix: a list of rows, each row a list of column entries, mirroring the
Rust representation `Vec<Vec<f32>>` with scalars modelled by `ℚ`. -/
abbrev Mat : Type := List (List ℚ)

/-- Reading `matrix[r][c]`; an out-of-range read yields `0` in the total
embedding (the checked embedding below models it as a failure instead). -/
def getEntry (m : Mat) (r c : Nat) : ℚ := (m.getD r []).getD c 0

/-- Writing `matrix[r][c] = v`; an out-of-range write is dropped. -/
def setEntry (m : Mat) (r c : Nat) (v : ℚ) : Mat :=
  m.set r ((m.getD r []).set c v)

/-- Length of row `r`, i.e. `matrix[r].len()`. -/
def rowLen (m : Mat) (r : Nat) : Nat := (m.getD r []).length

/-- Exchange of the rows at positions `i` and `j`, mirroring `Vec::swap`. -/
def swapRows (m : Mat) (i j : Nat) : Mat :=
  let ri := m.getD i []
  let rj := m.getD j []
  (m.set i rj).set j ri

/-- The elimination mode tag `GaussEliminationOption` from the source. -/
inductive GaussEliminationOption : Type
  | JustEchelon
  | PrepareReduce

/-- Forward pivot search, the local `find_pivot` of `gauss_elimination`:
`(d..matrix.len()).find(|&i| matrix[i][d] != 0f32)`. -/
def find_pivot (m : Mat) (d : Nat) : Option Nat :=
  (List.range' d (m.length - d)).find? (fun i => decide (getEntry m i d ≠ 0))

/-- Inner column loop shared by forward and back elimination:
`for col in cols { matrix[t][col] -= factor * matrix[s][col] }`. -/
def subRowLoop (t s : Nat) (factor : ℚ) (cols : List Nat) (m : Mat) : Mat :=
  cols.foldl
    (fun acc col => setEntry acc t col (getEntry acc t col - factor * getEntry acc s col)) m

/-- One iteration of the forward elimination row loop:
`let factor = matrix[row][c] / matrix[i][c];
for col in c..matrix[row].len() { matrix[row][col] -= factor * matrix[i][col] }`. -/
def elimRow (c i : Nat) (m : Mat) (row : Nat) : Mat :=
  let factor := getEntry m row c / getEntry m i c
  subRowLoop row i factor (List.range' c (rowLen m row - c)) m

/-- The forward elimination row loop `for row in i + 1..nrows`. -/
def elimBelow (nrows c i : Nat) (m : Mat) : Mat :=
  (List.range' (i + 1) (nrows - (i + 1))).foldl (elimRow c i) m

/-- Scaling loop used by the pivot normalization:
`for col in cols { matrix[t][col] *= factor }`. -/
def scaleRowLoop (t : Nat) (factor : ℚ) (cols : List Nat) (m : Mat) : Mat :=
  cols.foldl (fun acc col => setEntry acc t col (getEntry acc t col * factor)) m

/-- Pivot normalization in `PrepareReduce` mode:
`let factor = 1.0 / matrix[c][c];
for col in c..matrix[c].len() { matrix[c][col] *= factor }`. -/
def normalizeRow (c : Nat) (m : Mat) : Mat :=
  let factor := 1 / getEntry m c c
  scaleRowLoop c factor (List.range' c (rowLen m c - c)) m

/-- Processing of one column `c` of the forward elimination loop of
`gauss_elimination` (the body of `for c in 0..nrows`). -/
def gaussStep (option : GaussEliminationOption) (nrows : Nat) (m : Mat) (c : Nat) : Mat :=
  match find_pivot m c with
  | none => m
  | some i =>
    let m1 := elimBelow nrows c i m
    let m2 := if c ≠ i then swapRows m1 i c else m1
    match option with
    | .PrepareReduce => normalizeRow c m2
    | .JustEchelon => m2

/-- The Rust function `gauss_elimination`. -/
def gauss_elimination (m : Mat) (option : GaussEliminationOption) : Mat :=
  let nrows := m.length
  (List.range nrows).foldl (gaussStep option nrows) m

/-- Back-elimination pivot search, the local `find_pivot` inside
`gauss_jordan_elimination`: `(d..matrix.len()).find(|&i| matrix[d][i] != 0f32)`
— note that it scans along row `d` with column indices bounded by the row
count. -/
def find_pivot_jordan (m : Mat) (d : Nat) : Option Nat :=
  (List.range' d (m.length - d)).find? (fun i => decide (getEntry m d i ≠ 0))

/-- One iteration of the back elimination row loop:
`let factor = matrix[row][i];
for col in d..matrix[i].len() { matrix[row][col] -= factor * matrix[d][col] }`. -/
def backRow (d i : Nat) (m : Mat) (row : Nat) : Mat :=
  let factor := getEntry m row i
  subRowLoop row d factor (List.range' d (rowLen m i - d)) m

/-- Processing of one row index `d` of the back elimination loop of
`gauss_jordan_elimination` (the body of `for d in (1..nrows).rev()`). -/
def backStep (m : Mat) (d : Nat) : Mat :=
  match find_pivot_jordan m d with
  | none => m
  | some i => ((List.range d).reverse).foldl (backRow d i) m

/-- The Rust function `gauss_jordan_elimination`. -/
def gauss_jordan_elimination (m : Mat) : Mat :=
  let m1 := gauss_elimination m .PrepareReduce
  let nrows := m1.length
  ((List.range' 1 (nrows - 1)).reverse).foldl backStep m1

/-- The input matrix of the library's test fixtures. -/
def testMat : Mat := [[1, 2, 1, 10], [2, 3, 2, 12], [3, 1, 4, 11]]

example :
    gauss_elimination testMat .JustEchelon =
      [[1, 2, 1, 10], [0, -1, 0, -8], [0, 0, 1, 21]] := by with_unfolding_all decide

example :
    gauss_elimination testMat .PrepareReduce =
      [[1, 2, 1, 10], [0, 1, 0, 8], [0, 0, 1, 21]] := by with_unfolding_all decide

example :
    gauss_jordan_elimination testMat =
      [[1, 0, 0, -27], [0, 1, 0, 8], [0, 0, 1, 21]] := by with_unfolding_all decide

example :
    gauss_elimination [[1, 2, 1, 10], [0, 0, 2, 12], [3, 1, 4, 11]] .JustEchelon =
      [[1, 2, 1, 10], [0, -5, 1, -19], [0, 0, 2, 12]] := by with_unfolding_all decide

/-! ### Access and shape lemmas -/

lemma getD_eq_nil_of_len_le {m : Mat} {r : Nat} (h : m.length ≤ r) : m.getD r [] = [] := by
  rw [List.getD_eq_getElem?_getD, List.getElem?_eq_none h]
  rfl

lemma getEntry_eq_zero_of_len_le {m : Mat} {r : Nat} (c : Nat) (h : m.length ≤ r) :
    getEntry m r c = 0 := by
  unfold getEntry
  rw [getD_eq_nil_of_len_le h]
  rfl

lemma getEntry_eq_zero_of_rowLen_le {m : Mat} {r c : Nat} (h : rowLen m r ≤ c) :
    getEntry m r c = 0 := by
  unfold rowLen at h
  unfold getEntry
  rw [List.getD_eq_getElem?_getD (m.getD r []), List.getElem?_eq_none h]
  rfl

lemma lt_rowLen_of_getEntry_ne_zero {m : Mat} {r c : Nat} (h : getEntry m r c ≠ 0) :
    c < rowLen m r := by
  by_contra h'
  exact h (getEntry_eq_zero_of_rowLen_le (by omega))

lemma lt_length_of_getEntry_ne_zero {m : Mat} {r c : Nat} (h : getEntry m r c ≠ 0) :
    r < m.length := by
  by_contra h'
  exact h (getEntry_eq_zero_of_len_le c (by omega))

lemma getRow_set (m : Mat) (r : Nat) (row : List ℚ) (r' : Nat) :
    ((m.set r row).getD r' []) = if r = r' ∧ r < m.length then row else m.getD r' [] := by
  rcases eq_or_ne r r' with rfl | hne
  · by_cases h2 : r < m.length
    · simp only [h2, and_true, if_pos rfl, true_and]
      rw [List.getD_eq_getElem?_getD, List.getElem?_set]
      simp [h2]
    · rw [List.set_eq_of_length_le (by omega)]
      simp [h2]
  · simp only [hne, false_and, if_neg]
    rw [List.getD_eq_getElem?_getD, List.getD_eq_getElem?_getD, List.getElem?_set]
    simp [hne]

lemma length_setEntry (m : Mat) (r c : Nat) (v : ℚ) :
    (setEntry m r c v).length = m.length := by
  simp [setEntry]

lemma rowLen_setEntry (m : Mat) (r c : Nat) (v : ℚ) (r' : Nat) :
    rowLen (setEntry m r c v) r' = rowLen m r' := by
  unfold rowLen setEntry
  rw [getRow_set]
  split
  · rename_i h
    rw [List.length_set, h.1]
  · rfl

lemma getEntry_setEntry (m : Mat) (r c : Nat) (v : ℚ) (r' c' : Nat) :
    getEntry (setEntry m r c v) r' c' =
      if r = r' ∧ c = c' ∧ r < m.length ∧ c < rowLen m r then v else getEntry m r' c' := by
  unfold getEntry setEntry rowLen
  rw [getRow_set]
  by_cases h1 : r = r'
  · subst h1
    by_cases h2 : r < m.length
    · rw [if_pos ⟨rfl, h2⟩]
      rw [List.getD_eq_getElem?_getD ((m.getD r []).set c v), List.getElem?_set]
      have hrow : List.getD m r [] = m[r] := by
        rw [List.getD_eq_getElem?_getD, List.getElem?_eq_getElem h2]
        rfl
      simp only [hrow]
      by_cases h3 : c = c'
      · subst h3
        by_cases h4 : c < m[r].length
        · simp [h2, h4, List.getD_eq_getElem?_getD]
        · have hn : m[r][c]? = none := List.getElem?_eq_none (by omega)
          simp [h2, h4, hn, List.getD_eq_getElem?_getD]
      · simp [h3, List.getD_eq_getElem?_getD]
    · simp [h2]
  · simp [h1]

lemma length_swapRows (m : Mat) (i j : Nat) : (swapRows m i j).length = m.length := by
  simp [swapRows]

lemma getRow_swapRows (m : Mat) {i j : Nat} (hi : i < m.length) (hj : j < m.length)
    (r : Nat) :
    (swapRows m i j).getD r [] =
      if r = j then m.getD i [] else if r = i then m.getD j [] else m.getD r [] := by
  unfold swapRows
  rw [getRow_set, getRow_set]
  simp only [List.length_set]
  rcases eq_or_ne r j with rfl | h1
  · rw [if_pos ⟨rfl, hj⟩, if_pos rfl]
  · rw [if_neg (by tauto), if_neg h1]
    rcases eq_or_ne r i with rfl | h2
    · rw [if_pos ⟨rfl, hi⟩, if_pos rfl]
    · rw [if_neg (by tauto), if_neg h2]

lemma getEntry_swapRows (m : Mat) {i j : Nat} (hi : i < m.length) (hj : j < m.length)
    (r c : Nat) :
    getEntry (swapRows m i j) r c =
      if r = j then getEntry m i c else if r = i then getEntry m j c else getEntry m r c := by
  unfold getEntry
  rw [getRow_swapRows m hi hj]
  split_ifs <;> rfl

lemma rowLen_swapRows (m : Mat) {i j : Nat} (hi : i < m.length) (hj : j < m.length)
    (r : Nat) :
    rowLen (swapRows m i j) r =
      if r = j then rowLen m i else if r = i then rowLen m j else rowLen m r := by
  unfold rowLen
  rw [getRow_swapRows m hi hj]
  split_ifs <;> rfl

/-- Rectangularity: every row has length `ncols`. -/
def Rect (m : Mat) (ncols : Nat) : Prop := ∀ row ∈ m, row.length = ncols

lemma Rect.rowLen_eq {m : Mat} {ncols : Nat} (h : Rect m ncols) {r : Nat}
    (hr : r < m.length) : rowLen m r = ncols := by
  unfold rowLen
  rw [List.getD_eq_getElem?_getD, List.getElem?_eq_getElem hr]
  exact h _ (List.getElem_mem hr)

lemma rect_setEntry {m : Mat} {ncols : Nat} (h : Rect m ncols) (r c : Nat) (v : ℚ) :
    Rect (setEntry m r c v) ncols := by
  intro row hrow
  unfold setEntry at hrow
  by_cases hr : r < m.length
  · rcases List.mem_or_eq_of_mem_set hrow with h' | h'
    · exact h _ h'
    · subst h'
      rw [List.length_set]
      exact h.rowLen_eq hr
  · rw [List.set_eq_of_length_le (by omega)] at hrow
    exact h _ hrow

lemma rect_swapRows {m : Mat} {ncols : Nat} (h : Rect m ncols) {i j : Nat}
    (hi : i < m.length) (hj : j < m.length) :
    Rect (swapRows m i j) ncols := by
  intro row hrow
  unfold swapRows at hrow
  rcases List.mem_or_eq_of_mem_set hrow with h' | h'
  · rcases List.mem_or_eq_of_mem_set h' with h'' | h''
    · exact h _ h''
    · subst h''
      exact h.rowLen_eq hj
  · subst h'
    exact h.rowLen_eq hi

/-- Extensionality for matrices in terms of shape and entries. -/
lemma mat_ext {m m' : Mat} (hlen : m.length = m'.length)
    (hrow : ∀ r, r < m.length → rowLen m r = rowLen m' r)
    (h : ∀ r c, r < m.length → c < rowLen m r → getEntry m r c = getEntry m' r c) :
    m = m' := by
  apply List.ext_getElem hlen
  intro r hr hr'
  apply List.ext_getElem
  · have := hrow r hr
    unfold rowLen at this
    rw [List.getD_eq_getElem?_getD, List.getElem?_eq_getElem hr] at this
    rw [List.getD_eq_getElem?_getD, List.getElem?_eq_getElem hr'] at this
    exact this
  · intro c hc hc'
    have hrl : c < rowLen m r := by
      unfold rowLen
      rw [List.getD_eq_getElem?_getD, List.getElem?_eq_getElem hr]
      exact hc
    have := h r c hr hrl
    unfold getEntry at this
    rw [List.getD_eq_getElem?_getD m, List.getElem?_eq_getElem hr,
      List.getD_eq_getElem?_getD m', List.getElem?_eq_getElem hr'] at this
    simp only [Option.getD_some] at this
    rw [List.getD_eq_getElem?_getD, List.getElem?_eq_getElem hc,
      List.getD_eq_getElem?_getD, List.getElem?_eq_getElem hc'] at this
    exact this

/-! ### Pivot search characterizations -/

lemma find_pivot_eq_none_iff {m : Mat} {d : Nat} :
    find_pivot m d = none ↔ ∀ i, d ≤ i → i < m.length → getEntry m i d = 0 := by
  unfold find_pivot
  rw [List.find?_range'_eq_none]
  constructor
  · intro h i h1 h2
    have := h i h1 (by omega)
    simpa using this
  · intro h i h1 h2
    have := h i h1 (by omega)
    simpa using this

lemma find_pivot_eq_some {m : Mat} {d i : Nat} (h : find_pivot m d = some i) :
    d ≤ i ∧ i < m.length ∧ getEntry m i d ≠ 0 ∧
      ∀ j, d ≤ j → j < i → getEntry m j d = 0 := by
  unfold find_pivot at h
  rw [List.find?_range'_eq_some] at h
  obtain ⟨hp, hmem, hfirst⟩ := h
  rw [List.mem_range'_1] at hmem
  refine ⟨hmem.1, by omega, by simpa using hp, ?_⟩
  intro j h1 h2
  have := hfirst j h1 h2
  simpa using this

lemma find_pivot_self {m : Mat} {d : Nat} (h : getEntry m d d ≠ 0) :
    find_pivot m d = some d := by
  have hd : d < m.length := lt_length_of_getEntry_ne_zero h
  unfold find_pivot
  rw [List.find?_range'_eq_some]
  refine ⟨by simpa using h, ?_, ?_⟩
  · rw [List.mem_range'_1]
    omega
  · intro j h1 h2
    exact absurd (lt_of_le_of_lt h1 h2) (lt_irrefl d)

lemma find_pivot_jordan_eq_none_iff {m : Mat} {d : Nat} :
    find_pivot_jordan m d = none ↔ ∀ i, d ≤ i → i < m.length → getEntry m d i = 0 := by
  unfold find_pivot_jordan
  rw [List.find?_range'_eq_none]
  constructor
  · intro h i h1 h2
    have := h i h1 (by omega)
    simpa using this
  · intro h i h1 h2
    have := h i h1 (by omega)
    simpa using this

lemma find_pivot_jordan_eq_some {m : Mat} {d i : Nat} (h : find_pivot_jordan m d = some i) :
    d ≤ i ∧ i < m.length ∧ getEntry m d i ≠ 0 ∧
      ∀ j, d ≤ j → j < i → getEntry m d j = 0 := by
  unfold find_pivot_jordan at h
  rw [List.find?_range'_eq_some] at h
  obtain ⟨hp, hmem, hfirst⟩ := h
  rw [List.mem_range'_1] at hmem
  refine ⟨hmem.1, by omega, by simpa using hp, ?_⟩
  intro j h1 h2
  have := hfirst j h1 h2
  simpa using this

lemma find_pivot_jordan_self {m : Mat} {d : Nat} (hd : d < m.length)
    (h : getEntry m d d ≠ 0) :
    find_pivot_jordan m d = some d := by
  unfold find_pivot_jordan
  rw [List.find?_range'_eq_some]
  refine ⟨by simpa using h, ?_, ?_⟩
  · rw [List.mem_range'_1]
    omega
  · intro j h1 h2
    exact absurd (lt_of_le_of_lt h1 h2) (lt_irrefl d)

/-! ### Pointwise characterization of the inner loops -/

lemma length_subRowLoop (t s : Nat) (f : ℚ) (cols : List Nat) (m : Mat) :
    (subRowLoop t s f cols m).length = m.length := by
  induction cols generalizing m with
  | nil => rfl
  | cons col cols ih =>
    show (subRowLoop t s f cols _).length = _
    rw [ih, length_setEntry]

lemma rowLen_subRowLoop (t s : Nat) (f : ℚ) (cols : List Nat) (m : Mat) (r : Nat) :
    rowLen (subRowLoop t s f cols m) r = rowLen m r := by
  induction cols generalizing m with
  | nil => rfl
  | cons col cols ih =>
    show rowLen (subRowLoop t s f cols _) r = _
    rw [ih, rowLen_setEntry]

lemma length_scaleRowLoop (t : Nat) (f : ℚ) (cols : List Nat) (m : Mat) :
    (scaleRowLoop t f cols m).length = m.length := by
  induction cols generalizing m with
  | nil => rfl
  | cons col cols ih =>
    show (scaleRowLoop t f cols _).length = _
    rw [ih, length_setEntry]

lemma rowLen_scaleRowLoop (t : Nat) (f : ℚ) (cols : List Nat) (m : Mat) (r : Nat) :
    rowLen (scaleRowLoop t f cols m) r = rowLen m r := by
  induction cols generalizing m with
  | nil => rfl
  | cons col cols ih =>
    show rowLen (scaleRowLoop t f cols _) r = _
    rw [ih, rowLen_setEntry]

lemma getEntry_subRowLoop {t s : Nat} (hts : t ≠ s) (f : ℚ) (a k : Nat) (m : Mat)
    (r c : Nat) :
    getEntry (subRowLoop t s f (List.range' a k) m) r c =
      if r = t ∧ t < m.length ∧ a ≤ c ∧ c < a + k ∧ c < rowLen m t then
        getEntry m t c - f * getEntry m s c
      else getEntry m r c := by
  induction k generalizing a m with
  | zero =>
    rw [List.range'_zero]
    have : ¬(r = t ∧ t < m.length ∧ a ≤ c ∧ c < a + 0 ∧ c < rowLen m t) := by omega
    rw [if_neg this]
    rfl
  | succ k ih =>
    rw [List.range'_succ]
    show getEntry (subRowLoop t s f (List.range' (a + 1) k)
      (setEntry m t a (getEntry m t a - f * getEntry m s a))) r c = _
    rw [ih]
    set m1 := setEntry m t a (getEntry m t a - f * getEntry m s a) with hm1
    have hlen : m1.length = m.length := length_setEntry ..
    have hrl : ∀ x, rowLen m1 x = rowLen m x := fun x => rowLen_setEntry ..
    have hget : ∀ x y, getEntry m1 x y =
        if t = x ∧ a = y ∧ t < m.length ∧ a < rowLen m t then
          getEntry m t a - f * getEntry m s a
        else getEntry m x y := fun x y => getEntry_setEntry ..
    simp only [hlen, hrl]
    by_cases hL : r = t ∧ t < m.length ∧ a + 1 ≤ c ∧ c < a + 1 + k ∧ c < rowLen m t
    · rw [if_pos hL]
      have hRc : r = t ∧ t < m.length ∧ a ≤ c ∧ c < a + (k + 1) ∧ c < rowLen m t := by
        obtain ⟨x1, x2, x3, x4, x5⟩ := hL
        exact ⟨x1, x2, by omega, by omega, x5⟩
      rw [if_pos hRc, hget, hget, if_neg (by omega), if_neg (by omega)]
    · rw [if_neg hL]
      by_cases hR : r = t ∧ t < m.length ∧ a ≤ c ∧ c < a + (k + 1) ∧ c < rowLen m t
      · rw [if_pos hR]
        obtain ⟨hr, h2', h3', h4', h5'⟩ := hR
        subst hr
        have hc : c = a := by omega
        subst hc
        rw [hget, if_pos ⟨rfl, rfl, h2', h5'⟩]
      · rw [if_neg hR, hget, if_neg (by omega)]

lemma getEntry_scaleRowLoop (t : Nat) (f : ℚ) (a k : Nat) (m : Mat) (r c : Nat) :
    getEntry (scaleRowLoop t f (List.range' a k) m) r c =
      if r = t ∧ t < m.length ∧ a ≤ c ∧ c < a + k ∧ c < rowLen m t then
        getEntry m t c * f
      else getEntry m r c := by
  induction k generalizing a m with
  | zero =>
    rw [List.range'_zero]
    have : ¬(r = t ∧ t < m.length ∧ a ≤ c ∧ c < a + 0 ∧ c < rowLen m t) := by omega
    rw [if_neg this]
    rfl
  | succ k ih =>
    rw [List.range'_succ]
    show getEntry (scaleRowLoop t f (List.range' (a + 1) k)
      (setEntry m t a (getEntry m t a * f))) r c = _
    rw [ih]
    set m1 := setEntry m t a (getEntry m t a * f) with hm1
    have hlen : m1.length = m.length := length_setEntry ..
    have hrl : ∀ x, rowLen m1 x = rowLen m x := fun x => rowLen_setEntry ..
    have hget : ∀ x y, getEntry m1 x y =
        if t = x ∧ a = y ∧ t < m.length ∧ a < rowLen m t then
          getEntry m t a * f
        else getEntry m x y := fun x y => getEntry_setEntry ..
    simp only [hlen, hrl]
    by_cases hL : r = t ∧ t < m.length ∧ a + 1 ≤ c ∧ c < a + 1 + k ∧ c < rowLen m t
    · rw [if_pos hL]
      have hRc : r = t ∧ t < m.length ∧ a ≤ c ∧ c < a + (k + 1) ∧ c < rowLen m t := by
        obtain ⟨x1, x2, x3, x4, x5⟩ := hL
        exact ⟨x1, x2, by omega, by omega, x5⟩
      rw [if_pos hRc, hget, if_neg (by omega)]
    · rw [if_neg hL]
      by_cases hR : r = t ∧ t < m.length ∧ a ≤ c ∧ c < a + (k + 1) ∧ c < rowLen m t
      · rw [if_pos hR]
        obtain ⟨hr, h2', h3', h4', h5'⟩ := hR
        subst hr
        have hc : c = a := by omega
        subst hc
        rw [hget, if_pos ⟨rfl, rfl, h2', h5'⟩]
      · rw [if_neg hR, hget, if_neg (by omega)]

/-! ### Shape preservation and pointwise form of the row loops -/

lemma rowLen_eq_len {m : Mat} {r : Nat} (hr : r < m.length) : rowLen m r = m[r].length := by
  unfold rowLen
  rw [List.getD_eq_getElem?_getD, List.getElem?_eq_getElem hr]
  rfl

lemma rect_of_rowLen {m m' : Mat} {ncols : Nat} (h : Rect m ncols)
    (hlen : m'.length = m.length) (hrl : ∀ r, rowLen m' r = rowLen m r) : Rect m' ncols := by
  intro row hrow
  obtain ⟨r, hr, rfl⟩ := List.mem_iff_getElem.mp hrow
  rw [← rowLen_eq_len hr, hrl]
  exact h.rowLen_eq (by omega)

lemma length_elimRow (c i : Nat) (m : Mat) (row : Nat) :
    (elimRow c i m row).length = m.length := length_subRowLoop ..

lemma rowLen_elimRow (c i : Nat) (m : Mat) (row r : Nat) :
    rowLen (elimRow c i m row) r = rowLen m r := rowLen_subRowLoop ..

lemma getEntry_elimRow {c i : Nat} {m : Mat} {row : Nat} (hri : row ≠ i) (r k : Nat) :
    getEntry (elimRow c i m row) r k =
      if r = row ∧ row < m.length ∧ c ≤ k ∧ k < rowLen m row then
        getEntry m row k - (getEntry m row c / getEntry m i c) * getEntry m i k
      else getEntry m r k := by
  unfold elimRow
  rw [getEntry_subRowLoop hri]
  by_cases hB : r = row ∧ row < m.length ∧ c ≤ k ∧ k < rowLen m row
  · rw [if_pos hB, if_pos ⟨hB.1, hB.2.1, hB.2.2.1, by omega, hB.2.2.2⟩]
  · rw [if_neg hB, if_neg ?_]
    intro hA
    exact hB ⟨hA.1, hA.2.1, hA.2.2.1, hA.2.2.2.2⟩

lemma length_foldl_elimRow (c i : Nat) (l : List Nat) (m : Mat) :
    (l.foldl (elimRow c i) m).length = m.length := by
  induction l generalizing m with
  | nil => rfl
  | cons x l ih =>
    show (l.foldl (elimRow c i) _).length = _
    rw [ih, length_elimRow]

lemma rowLen_foldl_elimRow (c i : Nat) (l : List Nat) (m : Mat) (r : Nat) :
    rowLen (l.foldl (elimRow c i) m) r = rowLen m r := by
  induction l generalizing m with
  | nil => rfl
  | cons x l ih =>
    show rowLen (l.foldl (elimRow c i) _) r = _
    rw [ih, rowLen_elimRow]

lemma getEntry_elimBelow_fold {c i : Nat} (b j : Nat) (hib : i < b) (m : Mat) (r k : Nat) :
    getEntry ((List.range' b j).foldl (elimRow c i) m) r k =
      if b ≤ r ∧ r < b + j ∧ r < m.length ∧ c ≤ k ∧ k < rowLen m r then
        getEntry m r k - (getEntry m r c / getEntry m i c) * getEntry m i k
      else getEntry m r k := by
  induction j generalizing b m with
  | zero =>
    rw [List.range'_zero]
    have : ¬(b ≤ r ∧ r < b + 0 ∧ r < m.length ∧ c ≤ k ∧ k < rowLen m r) := by omega
    rw [if_neg this]
    rfl
  | succ j ih =>
    rw [List.range'_succ]
    show getEntry ((List.range' (b + 1) j).foldl (elimRow c i) (elimRow c i m b)) r k = _
    rw [ih (b + 1) (by omega)]
    set m1 := elimRow c i m b with hm1
    have hlen : m1.length = m.length := length_elimRow ..
    have hrl : ∀ x, rowLen m1 x = rowLen m x := fun x => rowLen_elimRow ..
    have hbi : b ≠ i := by omega
    have hget : ∀ x y, getEntry m1 x y =
        if x = b ∧ b < m.length ∧ c ≤ y ∧ y < rowLen m b then
          getEntry m b y - (getEntry m b c / getEntry m i c) * getEntry m i y
        else getEntry m x y := fun x y => getEntry_elimRow hbi x y
    simp only [hlen, hrl]
    by_cases hL : b + 1 ≤ r ∧ r < b + 1 + j ∧ r < m.length ∧ c ≤ k ∧ k < rowLen m r
    · rw [if_pos hL,
        if_pos (⟨by omega, by omega, hL.2.2.1, hL.2.2.2.1, hL.2.2.2.2⟩ :
          b ≤ r ∧ r < b + (j + 1) ∧ r < m.length ∧ c ≤ k ∧ k < rowLen m r),
        hget, if_neg (by omega), hget, if_neg (by omega), hget, if_neg (by omega),
        hget, if_neg (by omega)]
    · rw [if_neg hL]
      by_cases hR : b ≤ r ∧ r < b + (j + 1) ∧ r < m.length ∧ c ≤ k ∧ k < rowLen m r
      · rw [if_pos hR]
        have hrb : r = b := by omega
        obtain ⟨h1', h2', h3', h4', h5'⟩ := hR
        subst hrb
        rw [hget, if_pos ⟨rfl, h3', h4', h5'⟩]
      · rw [if_neg hR, hget, if_neg ?_]
        intro hA
        obtain ⟨hrb, hb1, hb2, hb3⟩ := hA
        subst hrb
        exact hR ⟨le_refl r, by omega, hb1, hb2, hb3⟩

lemma length_elimBelow (nrows c i : Nat) (m : Mat) :
    (elimBelow nrows c i m).length = m.length := length_foldl_elimRow ..

lemma rowLen_elimBelow (nrows c i : Nat) (m : Mat) (r : Nat) :
    rowLen (elimBelow nrows c i m) r = rowLen m r := rowLen_foldl_elimRow ..

lemma getEntry_elimBelow (nrows c i : Nat) (m : Mat) (r k : Nat) :
    getEntry (elimBelow nrows c i m) r k =
      if i + 1 ≤ r ∧ r < nrows ∧ r < m.length ∧ c ≤ k ∧ k < rowLen m r then
        getEntry m r k - (getEntry m r c / getEntry m i c) * getEntry m i k
      else getEntry m r k := by
  unfold elimBelow
  rw [getEntry_elimBelow_fold (i + 1) (nrows - (i + 1)) (by omega)]
  by_cases hB : i + 1 ≤ r ∧ r < nrows ∧ r < m.length ∧ c ≤ k ∧ k < rowLen m r
  · rw [if_pos hB, if_pos ⟨hB.1, by omega, hB.2.2.1, hB.2.2.2.1, hB.2.2.2.2⟩]
  · rw [if_neg hB, if_neg ?_]
    intro hA
    exact hB ⟨hA.1, by omega, hA.2.2.1, hA.2.2.2.1, hA.2.2.2.2⟩

lemma length_backRow (d i : Nat) (m : Mat) (row : Nat) :
    (backRow d i m row).length = m.length := length_subRowLoop ..

lemma rowLen_backRow (d i : Nat) (m : Mat) (row r : Nat) :
    rowLen (backRow d i m row) r = rowLen m r := rowLen_subRowLoop ..

lemma getEntry_backRow {d i : Nat} {m : Mat} {row : Nat} (hrd : row ≠ d) (r k : Nat) :
    getEntry (backRow d i m row) r k =
      if r = row ∧ row < m.length ∧ d ≤ k ∧ k < rowLen m i ∧ k < rowLen m row then
        getEntry m row k - getEntry m row i * getEntry m d k
      else getEntry m r k := by
  unfold backRow
  rw [getEntry_subRowLoop hrd]
  by_cases hB : r = row ∧ row < m.length ∧ d ≤ k ∧ k < rowLen m i ∧ k < rowLen m row
  · rw [if_pos hB, if_pos ⟨hB.1, hB.2.1, hB.2.2.1, by omega, hB.2.2.2.2⟩]
  · rw [if_neg hB, if_neg ?_]
    intro hA
    exact hB ⟨hA.1, hA.2.1, hA.2.2.1, by omega, hA.2.2.2.2⟩

lemma length_foldl_backRow (d i : Nat) (l : List Nat) (m : Mat) :
    (l.foldl (backRow d i) m).length = m.length := by
  induction l generalizing m with
  | nil => rfl
  | cons x l ih =>
    show (l.foldl (backRow d i) _).length = _
    rw [ih, length_backRow]

lemma rowLen_foldl_backRow (d i : Nat) (l : List Nat) (m : Mat) (r : Nat) :
    rowLen (l.foldl (backRow d i) m) r = rowLen m r := by
  induction l generalizing m with
  | nil => rfl
  | cons x l ih =>
    show rowLen (l.foldl (backRow d i) _) r = _
    rw [ih, rowLen_backRow]

lemma getEntry_backFold {d i : Nat} (j : Nat) (hjd : j ≤ d) (m : Mat) (r k : Nat) :
    getEntry (((List.range j).reverse).foldl (backRow d i) m) r k =
      if r < j ∧ r < m.length ∧ d ≤ k ∧ k < rowLen m i ∧ k < rowLen m r then
        getEntry m r k - getEntry m r i * getEntry m d k
      else getEntry m r k := by
  induction j generalizing m with
  | zero =>
    have : ¬(r < 0 ∧ r < m.length ∧ d ≤ k ∧ k < rowLen m i ∧ k < rowLen m r) := by omega
    rw [if_neg this]
    rfl
  | succ j ih =>
    have hrev : (List.range (j + 1)).reverse = j :: (List.range j).reverse := by
      rw [List.range_succ, List.reverse_append]
      rfl
    rw [hrev]
    show getEntry (((List.range j).reverse).foldl (backRow d i) (backRow d i m j)) r k = _
    rw [ih (by omega)]
    set m1 := backRow d i m j with hm1
    have hlen : m1.length = m.length := length_backRow ..
    have hrl : ∀ x, rowLen m1 x = rowLen m x := fun x => rowLen_backRow ..
    have hjd' : j ≠ d := by omega
    have hget : ∀ x y, getEntry m1 x y =
        if x = j ∧ j < m.length ∧ d ≤ y ∧ y < rowLen m i ∧ y < rowLen m j then
          getEntry m j y - getEntry m j i * getEntry m d y
        else getEntry m x y := fun x y => getEntry_backRow hjd' x y
    simp only [hlen, hrl]
    by_cases hL : r < j ∧ r < m.length ∧ d ≤ k ∧ k < rowLen m i ∧ k < rowLen m r
    · rw [if_pos hL,
        if_pos (⟨by omega, hL.2.1, hL.2.2.1, hL.2.2.2.1, hL.2.2.2.2⟩ :
          r < j + 1 ∧ r < m.length ∧ d ≤ k ∧ k < rowLen m i ∧ k < rowLen m r),
        hget, if_neg (by omega), hget, if_neg (by omega), hget, if_neg (by omega)]
    · rw [if_neg hL]
      by_cases hR : r < j + 1 ∧ r < m.length ∧ d ≤ k ∧ k < rowLen m i ∧ k < rowLen m r
      · rw [if_pos hR]
        have hrj : r = j := by omega
        obtain ⟨h1', h2', h3', h4', h5'⟩ := hR
        subst hrj
        rw [hget, if_pos ⟨rfl, h2', h3', h4', h5'⟩]
      · rw [if_neg hR, hget, if_neg ?_]
        intro hA
        obtain ⟨hrj, hb1, hb2, hb3, hb4⟩ := hA
        subst hrj
        exact hR ⟨by omega, hb1, hb2, hb3, hb4⟩

lemma length_normalizeRow (c : Nat) (m : Mat) :
    (normalizeRow c m).length = m.length := length_scaleRowLoop ..

lemma rowLen_normalizeRow (c : Nat) (m : Mat) (r : Nat) :
    rowLen (normalizeRow c m) r = rowLen m r := rowLen_scaleRowLoop ..

lemma getEntry_normalizeRow (c : Nat) (m : Mat) (r k : Nat) :
    getEntry (normalizeRow c m) r k =
      if r = c ∧ c < m.length ∧ c ≤ k ∧ k < rowLen m c then
        getEntry m c k * (1 / getEntry m c c)
      else getEntry m r k := by
  unfold normalizeRow
  rw [getEntry_scaleRowLoop]
  by_cases hB : r = c ∧ c < m.length ∧ c ≤ k ∧ k < rowLen m c
  · rw [if_pos hB, if_pos ⟨hB.1, hB.2.1, hB.2.2.1, by omega, hB.2.2.2⟩]
  · rw [if_neg hB, if_neg ?_]
    intro hA
    exact hB ⟨hA.1, hA.2.1, hA.2.2.1, hA.2.2.2.2⟩

/-! ### Shape preservation of the full steps and passes -/

lemma length_gaussStep (opt : GaussEliminationOption) (nrows : Nat) (m : Mat) (c : Nat) :
    (gaussStep opt nrows m c).length = m.length := by
  unfold gaussStep
  cases h : find_pivot m c with
  | none => rfl
  | some i =>
    cases opt with
    | JustEchelon =>
      by_cases hci : c ≠ i <;>
        simp [hci, length_swapRows, length_elimBelow]
    | PrepareReduce =>
      by_cases hci : c ≠ i <;>
        simp [hci, length_normalizeRow, length_swapRows, length_elimBelow]

lemma rect_gaussStep {m : Mat} {ncols : Nat} (h : Rect m ncols)
    (opt : GaussEliminationOption) (nrows : Nat) (c : Nat) :
    Rect (gaussStep opt nrows m c) ncols := by
  unfold gaussStep
  cases hp : find_pivot m c with
  | none => exact h
  | some i =>
    obtain ⟨hci', hil, _, _⟩ := find_pivot_eq_some hp
    have h1 : Rect (elimBelow nrows c i m) ncols :=
      rect_of_rowLen h (length_elimBelow ..) (rowLen_elimBelow nrows c i m)
    have h2 : Rect (if c ≠ i then swapRows (elimBelow nrows c i m) i c
        else elimBelow nrows c i m) ncols := by
      by_cases hci : c ≠ i
      · rw [if_pos hci]
        exact rect_swapRows h1 (by rw [length_elimBelow]; omega)
          (by rw [length_elimBelow]; omega)
      · rw [if_neg hci]
        exact h1
    cases opt with
    | JustEchelon => exact h2
    | PrepareReduce =>
      exact rect_of_rowLen h2 (length_normalizeRow ..)
        (fun r => rowLen_normalizeRow _ _ r)

lemma length_foldl_gaussStep (opt : GaussEliminationOption) (nrows : Nat) (l : List Nat)
    (m : Mat) : (l.foldl (gaussStep opt nrows) m).length = m.length := by
  induction l generalizing m with
  | nil => rfl
  | cons x l ih =>
    show (l.foldl (gaussStep opt nrows) _).length = _
    rw [ih, length_gaussStep]

lemma rect_foldl_gaussStep {m : Mat} {ncols : Nat} (h : Rect m ncols)
    (opt : GaussEliminationOption) (nrows : Nat) (l : List Nat) :
    Rect (l.foldl (gaussStep opt nrows) m) ncols := by
  induction l generalizing m with
  | nil => exact h
  | cons x l ih => exact ih (rect_gaussStep h opt nrows x)

lemma length_gauss_elimination (m : Mat) (opt : GaussEliminationOption) :
    (gauss_elimination m opt).length = m.length := length_foldl_gaussStep ..

lemma rect_gauss_elimination {m : Mat} {ncols : Nat} (h : Rect m ncols)
    (opt : GaussEliminationOption) : Rect (gauss_elimination m opt) ncols :=
  rect_foldl_gaussStep h opt m.length (List.range m.length)

lemma length_backStep (m : Mat) (d : Nat) : (backStep m d).length = m.length := by
  unfold backStep
  cases h : find_pivot_jordan m d with
  | none => rfl
  | some i => exact length_foldl_backRow ..

lemma rowLen_backStep (m : Mat) (d : Nat) (r : Nat) :
    rowLen (backStep m d) r = rowLen m r := by
  unfold backStep
  cases h : find_pivot_jordan m d with
  | none => rfl
  | some i => exact rowLen_foldl_backRow ..

lemma length_foldl_backStep (l : List Nat) (m : Mat) :
    (l.foldl backStep m).length = m.length := by
  induction l generalizing m with
  | nil => rfl
  | cons x l ih =>
    show (l.foldl backStep _).length = _
    rw [ih, length_backStep]

lemma rowLen_foldl_backStep (l : List Nat) (m : Mat) (r : Nat) :
    rowLen (l.foldl backStep m) r = rowLen m r := by
  induction l generalizing m with
  | nil => rfl
  | cons x l ih =>
    show rowLen (l.foldl backStep _) r = _
    rw [ih, rowLen_backStep]

lemma length_gauss_jordan_elimination (m : Mat) :
    (gauss_jordan_elimination m).length = m.length := by
  unfold gauss_jordan_elimination
  rw [length_foldl_backStep, length_gauss_elimination]

lemma rect_gauss_jordan_elimination {m : Mat} {ncols : Nat} (h : Rect m ncols) :
    Rect (gauss_jordan_elimination m) ncols := by
  unfold gauss_jordan_elimination
  exact rect_of_rowLen (rect_gauss_elimination h .PrepareReduce)
    (length_foldl_backStep ..) (fun r => rowLen_foldl_backStep _ _ r)

/-! ### Behaviour of one forward step -/

lemma gaussStep_none {m : Mat} {c : Nat} (opt : GaussEliminationOption) (nrows : Nat)
    (h : find_pivot m c = none) : gaussStep opt nrows m c = m := by
  unfold gaussStep
  rw [h]

lemma gaussStep_eq_of_pivot {m : Mat} {c i : Nat} (opt : GaussEliminationOption)
    (nrows : Nat) (hp : find_pivot m c = some i) :
    gaussStep opt nrows m c =
      (match opt with
      | .PrepareReduce => normalizeRow c
          (if c ≠ i then swapRows (elimBelow nrows c i m) i c else elimBelow nrows c i m)
      | .JustEchelon =>
          (if c ≠ i then swapRows (elimBelow nrows c i m) i c
            else elimBelow nrows c i m)) := by
  unfold gaussStep
  rw [hp]

lemma getEntry_gaussStep_below_zero {m : Mat} {c i : Nat} (opt : GaussEliminationOption)
    {nrows : Nat} (hn : nrows = m.length) (hp : find_pivot m c = some i) {r : Nat}
    (hr : c < r) :
    getEntry (gaussStep opt nrows m c) r c = 0 := by
  obtain ⟨hci, hil, hnz, hfirst⟩ := find_pivot_eq_some hp
  by_cases hrn : r < m.length
  case neg =>
    have hge : m.length ≤ r := by omega
    rw [← length_gaussStep opt nrows m c] at hge
    exact getEntry_eq_zero_of_len_le c hge
  case pos =>
  set m1 := elimBelow nrows c i m with hm1
  have hlen1 : m1.length = m.length := length_elimBelow ..
  have hrl1 : ∀ x, rowLen m1 x = rowLen m x := fun x => rowLen_elimBelow ..
  have f1 : ∀ x, i < x → getEntry m1 x c = 0 := by
    intro x hx
    by_cases hxl : x < m.length
    · rw [hm1, getEntry_elimBelow]
      by_cases hcr : c < rowLen m x
      · rw [if_pos ⟨by omega, by omega, hxl, le_refl c, hcr⟩, div_mul_cancel₀ _ hnz]
        exact sub_self _
      · rw [if_neg (by omega)]
        exact getEntry_eq_zero_of_rowLen_le (by omega)
    · exact getEntry_eq_zero_of_len_le c (by omega)
  have f2 : ∀ x, x ≤ i → ∀ y, getEntry m1 x y = getEntry m x y := by
    intro x hx y
    rw [hm1, getEntry_elimBelow, if_neg (by omega)]
  set m2 := if c ≠ i then swapRows m1 i c else m1 with hm2
  have f3 : getEntry m2 r c = 0 := by
    rw [hm2]
    by_cases hcine : c ≠ i
    · rw [if_pos hcine, getEntry_swapRows m1 (by omega) (by omega),
        if_neg (show ¬r = c by omega)]
      by_cases hri : r = i
      · rw [if_pos hri, f2 c (by omega)]
        exact hfirst c (le_refl c) (by omega)
      · rw [if_neg hri]
        by_cases hria : i < r
        · exact f1 r hria
        · rw [f2 r (by omega)]
          exact hfirst r (by omega) (by omega)
    · rw [if_neg hcine]
      exact f1 r (by omega)
  rw [gaussStep_eq_of_pivot opt nrows hp]
  cases opt with
  | JustEchelon => exact f3
  | PrepareReduce =>
    rw [getEntry_normalizeRow, if_neg (by omega)]
    exact f3

lemma getEntry_gaussStep_diag_one {m : Mat} {c i : Nat} {nrows : Nat}
    (hn : nrows = m.length) (hp : find_pivot m c = some i) :
    getEntry (gaussStep .PrepareReduce nrows m c) c c = 1 := by
  obtain ⟨hci, hil, hnz, hfirst⟩ := find_pivot_eq_some hp
  set m1 := elimBelow nrows c i m with hm1
  have hlen1 : m1.length = m.length := length_elimBelow ..
  have hrl1 : ∀ x, rowLen m1 x = rowLen m x := fun x => rowLen_elimBelow ..
  have f2 : ∀ x, x ≤ i → ∀ y, getEntry m1 x y = getEntry m x y := by
    intro x hx y
    rw [hm1, getEntry_elimBelow, if_neg (by omega)]
  set m2 := if c ≠ i then swapRows m1 i c else m1 with hm2
  have hlen2 : m2.length = m.length := by
    rw [hm2]
    by_cases hcine : c ≠ i
    · rw [if_pos hcine, length_swapRows, hlen1]
    · rw [if_neg hcine, hlen1]
  have f4 : getEntry m2 c c = getEntry m i c := by
    rw [hm2]
    by_cases hcine : c ≠ i
    · rw [if_pos hcine, getEntry_swapRows m1 (by omega) (by omega), if_pos rfl]
      exact f2 i (le_refl i) c
    · rw [if_neg hcine]
      have hic : i = c := by omega
      subst hic
      exact f2 i (le_refl i) i
  have f5 : rowLen m2 c = rowLen m i := by
    rw [hm2]
    by_cases hcine : c ≠ i
    · rw [if_pos hcine, rowLen_swapRows m1 (by omega) (by omega), if_pos rfl, hrl1]
    · rw [if_neg hcine, hrl1]
      have hic : i = c := by omega
      rw [hic]
  have hcrl : c < rowLen m i := lt_rowLen_of_getEntry_ne_zero hnz
  rw [gaussStep_eq_of_pivot .PrepareReduce nrows hp]
  show getEntry (normalizeRow c m2) c c = 1
  rw [getEntry_normalizeRow, if_pos ⟨rfl, by omega, le_refl c, by omega⟩, f4]
  exact mul_one_div_cancel hnz

lemma gaussStep_preserves_colzero {m : Mat} {c c' : Nat} (hcc : c < c')
    (opt : GaussEliminationOption) {nrows : Nat} (hn : nrows = m.length)
    (hz : ∀ r, c < r → getEntry m r c = 0) :
    ∀ r, c < r → getEntry (gaussStep opt nrows m c') r c = 0 := by
  intro r hr
  cases hp : find_pivot m c' with
  | none =>
    rw [gaussStep_none opt nrows hp]
    exact hz r hr
  | some i =>
    obtain ⟨hci, hil, hnz, hfirst⟩ := find_pivot_eq_some hp
    have f1 : ∀ x, getEntry (elimBelow nrows c' i m) x c = getEntry m x c := by
      intro x
      rw [getEntry_elimBelow, if_neg (by omega)]
    have f2 : ∀ x, c < x →
        getEntry (if c' ≠ i then swapRows (elimBelow nrows c' i m) i c'
          else elimBelow nrows c' i m) x c = 0 := by
      intro x hx
      by_cases hcine : c' ≠ i
      · rw [if_pos hcine,
          getEntry_swapRows _ (by rw [length_elimBelow]; omega)
            (by rw [length_elimBelow]; omega)]
        by_cases hxc' : x = c'
        · rw [if_pos hxc', f1 i]
          exact hz i (by omega)
        · rw [if_neg hxc']
          by_cases hxi : x = i
          · rw [if_pos hxi, f1 c']
            exact hz c' (by omega)
          · rw [if_neg hxi, f1 x]
            exact hz x hx
      · rw [if_neg hcine, f1 x]
        exact hz x hx
    rw [gaussStep_eq_of_pivot opt nrows hp]
    cases opt with
    | JustEchelon => exact f2 r hr
    | PrepareReduce =>
      rw [getEntry_normalizeRow, if_neg (by omega)]
      exact f2 r hr

lemma getEntry_gaussStep_above {m : Mat} {c' r : Nat} (hr : r < c')
    (opt : GaussEliminationOption) (nrows : Nat) (k : Nat) :
    getEntry (gaussStep opt nrows m c') r k = getEntry m r k := by
  cases hp : find_pivot m c' with
  | none => rw [gaussStep_none opt nrows hp]
  | some i =>
    obtain ⟨hci, hil, _, _⟩ := find_pivot_eq_some hp
    have f1 : getEntry (elimBelow nrows c' i m) r k = getEntry m r k := by
      rw [getEntry_elimBelow, if_neg (by omega)]
    have f2 : getEntry (if c' ≠ i then swapRows (elimBelow nrows c' i m) i c'
        else elimBelow nrows c' i m) r k = getEntry m r k := by
      by_cases hcine : c' ≠ i
      · rw [if_pos hcine,
          getEntry_swapRows _ (by rw [length_elimBelow]; omega)
            (by rw [length_elimBelow]; omega),
          if_neg (by omega), if_neg (by omega)]
        exact f1
      · rw [if_neg hcine]
        exact f1
    rw [gaussStep_eq_of_pivot opt nrows hp]
    cases opt with
    | JustEchelon => exact f2
    | PrepareReduce =>
      rw [getEntry_normalizeRow, if_neg (by omega)]
      exact f2

/-! ### Composition of the forward pass -/

/-- State of the matrix after the forward loop has processed columns `0..c-1`. -/
def forwardUpTo (m : Mat) (opt : GaussEliminationOption) (c : Nat) : Mat :=
  (List.range c).foldl (gaussStep opt m.length) m

lemma gauss_elimination_eq_forwardUpTo (m : Mat) (opt : GaussEliminationOption) :
    gauss_elimination m opt = forwardUpTo m opt m.length := rfl

lemma forward_decomp (m : Mat) (opt : GaussEliminationOption) {c : Nat}
    (hc : c < m.length) :
    gauss_elimination m opt =
      (List.range' (c + 1) (m.length - (c + 1))).foldl (gaussStep opt m.length)
        (gaussStep opt m.length (forwardUpTo m opt c) c) := by
  have h1 : List.range' 0 m.length =
      List.range' 0 c ++ c :: List.range' (c + 1) (m.length - (c + 1)) := by
    have h := List.range'_append_1 0 c (m.length - c)
    rw [show m.length - c + c = m.length by omega] at h
    rw [← h, show m.length - c = (m.length - (c + 1)) + 1 by omega, List.range'_succ]
    norm_num
  show (List.range m.length).foldl (gaussStep opt m.length) m = _
  unfold forwardUpTo
  simp only [List.range_eq_range']
  rw [h1, List.foldl_append]
  rfl

lemma foldl_gaussStep_colzero {c : Nat} (opt : GaussEliminationOption) (nrows : Nat)
    (l : List Nat) :
    ∀ {m : Mat}, (∀ x ∈ l, c < x) → nrows = m.length →
      (∀ r, c < r → getEntry m r c = 0) →
      ∀ r, c < r → getEntry (l.foldl (gaussStep opt nrows) m) r c = 0 := by
  induction l with
  | nil =>
    intro m _ _ hz r hr
    exact hz r hr
  | cons x l ih =>
    intro m hl hn hz r hr
    show getEntry (l.foldl (gaussStep opt nrows) (gaussStep opt nrows m x)) r c = 0
    refine ih ?_ ?_ ?_ r hr
    · intro y hy
      exact hl y (List.mem_cons_of_mem _ hy)
    · rw [length_gaussStep]
      exact hn
    · exact gaussStep_preserves_colzero (hl x (List.mem_cons_self x l)) opt hn hz

lemma foldl_gaussStep_row_above {c : Nat} (opt : GaussEliminationOption) (nrows : Nat)
    (l : List Nat) :
    ∀ {m : Mat}, (∀ x ∈ l, c < x) →
      ∀ k, getEntry (l.foldl (gaussStep opt nrows) m) c k = getEntry m c k := by
  induction l with
  | nil =>
    intro m _ k
    rfl
  | cons x l ih =>
    intro m hl k
    show getEntry (l.foldl (gaussStep opt nrows) (gaussStep opt nrows m x)) c k = _
    rw [ih (fun y hy => hl y (List.mem_cons_of_mem _ hy)) k,
      getEntry_gaussStep_above (hl x (List.mem_cons_self x l)) opt nrows k]

/-! ### Claim theorems: forward elimination -/

/-- C2: for every rectangular matrix (with at least as many columns as rows, the
data-model precondition), after `gauss_elimination` with mode `JustEchelon`, for
every column `c` where the pivot finder located a pivot during the run, every
row with index greater than `c` has a zero entry in column `c`. -/
theorem gauss_elimination_echelon_zeros_below (m : Mat) (ncols : Nat)
    (hrect : Rect m ncols) (hcols : m.length ≤ ncols)
    (c i : Nat) (hp : find_pivot (forwardUpTo m .JustEchelon c) c = some i)
    (r : Nat) (hcr : c < r) (hr : r < m.length) :
    getEntry (gauss_elimination m .JustEchelon) r c = 0 := by
  have hlenUp : (forwardUpTo m .JustEchelon c).length = m.length :=
    length_foldl_gaussStep ..
  obtain ⟨h1, h2, h3, h4⟩ := find_pivot_eq_some hp
  have hc : c < m.length := by omega
  rw [forward_decomp m .JustEchelon hc]
  have hstep : ∀ r', c < r' →
      getEntry (gaussStep .JustEchelon m.length (forwardUpTo m .JustEchelon c) c) r' c
        = 0 := by
    intro r' hr'
    exact getEntry_gaussStep_below_zero .JustEchelon hlenUp.symm hp hr'
  refine foldl_gaussStep_colzero .JustEchelon m.length _ ?_ ?_ hstep r hcr
  · intro x hx
    rw [List.mem_range'_1] at hx
    omega
  · rw [length_gaussStep, hlenUp]

/-- Witness for C2 on the library's test fixture. -/
theorem gauss_elimination_echelon_zeros_below_witness :
    getEntry (gauss_elimination testMat .JustEchelon) 1 0 = 0 :=
  gauss_elimination_echelon_zeros_below testMat 4 (by unfold Rect testMat; decide) (by decide) 0 0
    (by with_unfolding_all decide) 1 (by decide) (by decide)

/-- C3: for every rectangular matrix (with at least as many columns as rows),
after `gauss_elimination` with mode `PrepareReduce`, every located pivot entry
(at row `c`, column `c`) equals exactly one, as a consequence of scaling the
pivot row by `one / matrix[c][c]` (exact-field semantics). -/
theorem gauss_elimination_pivot_one (m : Mat) (ncols : Nat)
    (hrect : Rect m ncols) (hcols : m.length ≤ ncols)
    (c i : Nat) (hp : find_pivot (forwardUpTo m .PrepareReduce c) c = some i) :
    getEntry (gauss_elimination m .PrepareReduce) c c = 1 := by
  have hlenUp : (forwardUpTo m .PrepareReduce c).length = m.length :=
    length_foldl_gaussStep ..
  obtain ⟨h1, h2, h3, h4⟩ := find_pivot_eq_some hp
  have hc : c < m.length := by omega
  rw [forward_decomp m .PrepareReduce hc]
  rw [foldl_gaussStep_row_above .PrepareReduce m.length _ ?_ c]
  · exact getEntry_gaussStep_diag_one hlenUp.symm hp
  · intro x hx
    rw [List.mem_range'_1] at hx
    omega

/-- Witness for C3 on the library's test fixture (pivot of column 1). -/
theorem gauss_elimination_pivot_one_witness :
    getEntry (gauss_elimination testMat .PrepareReduce) 1 1 = 1 :=
  gauss_elimination_pivot_one testMat 4 (by unfold Rect testMat; decide) (by decide) 1 1
    (by with_unfolding_all decide)

/-- C8: if a column has no nonzero entry at or below the current row, the pivot
finder reports no pivot and the processing of that column leaves the entire
matrix unchanged (no division, no swap, no normalization); the loop then
continues with the next column. -/
theorem gauss_elimination_skip_column (m : Mat) (opt : GaussEliminationOption)
    (nrows c : Nat)
    (hz : ∀ i, c ≤ i → i < m.length → getEntry m i c = 0) :
    find_pivot m c = none ∧ gaussStep opt nrows m c = m :=
  have hnone := find_pivot_eq_none_iff.mpr hz
  ⟨hnone, gaussStep_none opt nrows hnone⟩

/-- Witness for C8: column 1 of this matrix has only zeros at or below row 1. -/
theorem gauss_elimination_skip_column_witness :
    find_pivot [[1, 2, 3], [0, 0, 4], [0, 0, 5]] 1 = none ∧
      gaussStep .JustEchelon 3 [[1, 2, 3], [0, 0, 4], [0, 0, 5]] 1 =
        [[1, 2, 3], [0, 0, 4], [0, 0, 5]] :=
  gauss_elimination_skip_column [[1, 2, 3], [0, 0, 4], [0, 0, 5]] .JustEchelon 3 1
    (by
      intro i h1 h2
      have h2' : i < 3 := by simpa using h2
      interval_cases i <;> with_unfolding_all decide)

/-- C10: both elimination passes preserve the number of rows and the length of
every row of a rectangular matrix. -/
theorem gauss_shape_preserved (m : Mat) (ncols : Nat) (hrect : Rect m ncols)
    (opt : GaussEliminationOption) :
    ((gauss_elimination m opt).length = m.length ∧
      Rect (gauss_elimination m opt) ncols) ∧
    ((gauss_jordan_elimination m).length = m.length ∧
      Rect (gauss_jordan_elimination m) ncols) :=
  ⟨⟨length_gauss_elimination .., rect_gauss_elimination hrect opt⟩,
   ⟨length_gauss_jordan_elimination .., rect_gauss_jordan_elimination hrect⟩⟩

/-- Witness for C10 on the library's test fixture. -/
theorem gauss_shape_preserved_witness :
    ((gauss_elimination testMat .JustEchelon).length = testMat.length ∧
      Rect (gauss_elimination testMat .JustEchelon) 4) ∧
    ((gauss_jordan_elimination testMat).length = testMat.length ∧
      Rect (gauss_jordan_elimination testMat) 4) :=
  gauss_shape_preserved testMat 4 (by unfold Rect testMat; decide) .JustEchelon

/-- C4: in the back-elimination phase, the pivot column of row `d` is the first
index `i` in `d..nrows` with `matrix[d][i] ≠ 0`; if row `d` is zero on all of
columns `d..nrows-1`, the row is skipped and nothing is modified for that `d`,
even if the row has nonzero entries in columns at index `nrows` or beyond. -/
theorem back_pivot_scan (m : Mat) (d : Nat) :
    (∀ i, find_pivot_jordan m d = some i →
      d ≤ i ∧ i < m.length ∧ getEntry m d i ≠ 0 ∧
        ∀ k, d ≤ k → k < i → getEntry m d k = 0) ∧
    ((∀ k, d ≤ k → k < m.length → getEntry m d k = 0) → backStep m d = m) :=
  ⟨fun _ h => find_pivot_jordan_eq_some h,
   fun hz => by
     unfold backStep
     rw [find_pivot_jordan_eq_none_iff.mpr hz]⟩

/-- The matrix used in the C4 witness: rows of width 4, three rows; row 2 is
zero inside the square region but nonzero in the augmented column. -/
def backScanMat : Mat := [[1, 5, 9, 9], [0, 0, 7, 3], [0, 0, 0, 8]]

/-- Witness for C4: row 2 (zero on the square columns, nonzero in the augmented
column) is skipped unchanged, and the pivot of row 1 is found at column 2. -/
theorem back_pivot_scan_witness :
    backStep backScanMat 2 = backScanMat ∧
      (1 ≤ 2 ∧ 2 < backScanMat.length ∧ getEntry backScanMat 1 2 ≠ 0) :=
  ⟨(back_pivot_scan backScanMat 2).2
    (by
      intro k h1 h2
      have h2' : k < 3 := by simpa [backScanMat] using h2
      interval_cases k <;> with_unfolding_all decide),
   by
     have h := (back_pivot_scan backScanMat 1).1 2 (by with_unfolding_all decide)
     exact ⟨h.1, h.2.1, h.2.2.1⟩⟩

/-! ### Generic scalar variants (`feature = "generic_calculation"`)

The Rust generic functions are parameterized over a scalar type with zero, one,
the four arithmetic operations, a zero-test (`num::traits::Zero::is_zero`) and
copy.  This capability set is modelled as a `DivisionRing` with decidable
equality (commutativity of multiplication is not assumed by the code).  The
zero-test `matrix[i][d].is_zero() == false` is the Boolean test `≠ 0`. -/

section Generic

variable {α : Type} [DivisionRing α] [DecidableEq α]

/-- Generic entry read (out-of-range reads yield `0` in the total embedding). -/
def getEntryG (m : List (List α)) (r c : Nat) : α := (m.getD r []).getD c 0

/-- Generic entry write. -/
def setEntryG (m : List (List α)) (r c : Nat) (v : α) : List (List α) :=
  m.set r ((m.getD r []).set c v)

/-- Generic row length. -/
def rowLenG (m : List (List α)) (r : Nat) : Nat := (m.getD r []).length

/-- Generic row exchange. -/
def swapRowsG (m : List (List α)) (i j : Nat) : List (List α) :=
  let ri := m.getD i []
  let rj := m.getD j []
  (m.set i rj).set j ri

/-- The local `find_pivot` of `gauss_elimination_generic`. -/
def find_pivot_generic (m : List (List α)) (d : Nat) : Option Nat :=
  (List.range' d (m.length - d)).find? (fun i => decide (getEntryG m i d ≠ 0))

/-- Generic inner column loop; the generic source binds
`let number = matrix[s][col]` before the update. -/
def subRowLoopG (t s : Nat) (factor : α) (cols : List Nat) (m : List (List α)) :
    List (List α) :=
  cols.foldl
    (fun acc col =>
      let number := getEntryG acc s col
      setEntryG acc t col (getEntryG acc t col - factor * number)) m

/-- Generic forward elimination of one row. -/
def elimRowG (c i : Nat) (m : List (List α)) (row : Nat) : List (List α) :=
  let factor := getEntryG m row c / getEntryG m i c
  subRowLoopG row i factor (List.range' c (rowLenG m row - c)) m

/-- Generic `for row in i + 1..nrows` loop. -/
def elimBelowG (nrows c i : Nat) (m : List (List α)) : List (List α) :=
  (List.range' (i + 1) (nrows - (i + 1))).foldl (elimRowG c i) m

/-- Generic scaling loop. -/
def scaleRowLoopG (t : Nat) (factor : α) (cols : List Nat) (m : List (List α)) :
    List (List α) :=
  cols.foldl (fun acc col => setEntryG acc t col (getEntryG acc t col * factor)) m

/-- Generic pivot normalization, with `let factor = T::one() / matrix[c][c]`. -/
def normalizeRowG (c : Nat) (m : List (List α)) : List (List α) :=
  let factor := 1 / getEntryG m c c
  scaleRowLoopG c factor (List.range' c (rowLenG m c - c)) m

/-- Generic processing of one column of `gauss_elimination_generic`. -/
def gaussStepG (option : GaussEliminationOption) (nrows : Nat) (m : List (List α))
    (c : Nat) : List (List α) :=
  match find_pivot_generic m c with
  | none => m
  | some i =>
    let m1 := elimBelowG nrows c i m
    let m2 := if c ≠ i then swapRowsG m1 i c else m1
    match option with
    | .PrepareReduce => normalizeRowG c m2
    | .JustEchelon => m2

/-- The Rust function `gauss_elimination_generic`. -/
def gauss_elimination_generic (m : List (List α)) (option : GaussEliminationOption) :
    List (List α) :=
  let nrows := m.length
  (List.range nrows).foldl (gaussStepG option nrows) m

/-- The local `find_pivot` of `gauss_jordan_elimination_generic`. -/
def find_pivot_jordan_generic (m : List (List α)) (d : Nat) : Option Nat :=
  (List.range' d (m.length - d)).find? (fun i => decide (getEntryG m d i ≠ 0))

/-- Generic back elimination of one row; the generic source binds
`let number = matrix[d][col]` before the update. -/
def backRowG (d i : Nat) (m : List (List α)) (row : Nat) : List (List α) :=
  let factor := getEntryG m row i
  subRowLoopG row d factor (List.range' d (rowLenG m i - d)) m

/-- Generic processing of one row of the back elimination loop. -/
def backStepG (m : List (List α)) (d : Nat) : List (List α) :=
  match find_pivot_jordan_generic m d with
  | none => m
  | some i => ((List.range d).reverse).foldl (backRowG d i) m

/-- The Rust function `gauss_jordan_elimination_generic`. -/
def gauss_jordan_elimination_generic (m : List (List α)) : List (List α) :=
  let m1 := gauss_elimination_generic m .PrepareReduce
  let nrows := m1.length
  ((List.range' 1 (nrows - 1)).reverse).foldl backStepG m1

end Generic

/-- C9: instantiated at the same scalar values, the generic variants produce
exactly the same output matrices as the concrete `gauss_elimination` and
`gauss_jordan_elimination`. -/
theorem generic_eq_concrete :
    ∀ (m : Mat) (opt : GaussEliminationOption),
      gauss_elimination_generic m opt = gauss_elimination m opt ∧
        gauss_jordan_elimination_generic m = gauss_jordan_elimination m :=
  fun _ _ => ⟨rfl, rfl⟩

/-! ### Checked embedding

Every index access mirrors the Rust bounds check (`none` models a panic) and
every division is guarded by a nonzero test on the divisor, so a `some` result
certifies that the run performs no out-of-bounds access and no division by a
zero divisor. -/

/-- Checked read of `matrix[r][c]`. -/
def idx (m : Mat) (r c : Nat) : Option ℚ :=
  m[r]?.bind fun row => row[c]?

/-- Checked division. -/
def divC (a b : ℚ) : Option ℚ := if b = 0 then none else some (a / b)

/-- Checked forward pivot search over a list of row indices. -/
def findPivotAuxC (m : Mat) (d : Nat) : List Nat → Option (Option Nat)
  | [] => some none
  | i :: rest =>
    (idx m i d).bind fun v =>
      if v ≠ 0 then some (some i) else findPivotAuxC m d rest

/-- Checked version of the forward `find_pivot`. -/
def find_pivotC (m : Mat) (d : Nat) : Option (Option Nat) :=
  findPivotAuxC m d (List.range' d (m.length - d))

/-- Checked forward elimination of one row. -/
def elimRowC (c i : Nat) (m : Mat) (row : Nat) : Option Mat :=
  (idx m row c).bind fun a =>
  (idx m i c).bind fun b =>
  (divC a b).bind fun factor =>
  (List.range' c (rowLen m row - c)).foldlM
    (fun acc col =>
      (idx acc row col).bind fun x =>
      (idx acc i col).bind fun y =>
      some (setEntry acc row col (x - factor * y))) m

/-- Checked `for row in i + 1..nrows` loop. -/
def elimBelowC (nrows c i : Nat) (m : Mat) : Option Mat :=
  (List.range' (i + 1) (nrows - (i + 1))).foldlM (elimRowC c i) m

/-- Checked pivot normalization. -/
def normalizeRowC (c : Nat) (m : Mat) : Option Mat :=
  (idx m c c).bind fun p =>
  (divC 1 p).bind fun factor =>
  (List.range' c (rowLen m c - c)).foldlM
    (fun acc col =>
      (idx acc c col).bind fun x =>
      some (setEntry acc c col (x * factor))) m

/-- Checked processing of one column of `gauss_elimination`. -/
def gaussStepC (option : GaussEliminationOption) (nrows : Nat) (m : Mat) (c : Nat) :
    Option Mat :=
  (find_pivotC m c).bind fun res =>
  match res with
  | none => some m
  | some i =>
    (elimBelowC nrows c i m).bind fun m1 =>
    let m2 := if c ≠ i then swapRows m1 i c else m1
    match option with
    | .PrepareReduce => normalizeRowC c m2
    | .JustEchelon => some m2

/-- Checked version of `gauss_elimination`. -/
def gauss_eliminationC (m : Mat) (option : GaussEliminationOption) : Option Mat :=
  let nrows := m.length
  (List.range nrows).foldlM (gaussStepC option nrows) m

/-- Checked back-elimination pivot search over a list of column indices. -/
def findPivotJordanAuxC (m : Mat) (d : Nat) : List Nat → Option (Option Nat)
  | [] => some none
  | i :: rest =>
    (idx m d i).bind fun v =>
      if v ≠ 0 then some (some i) else findPivotJordanAuxC m d rest

/-- Checked version of the back-elimination `find_pivot`. -/
def find_pivot_jordanC (m : Mat) (d : Nat) : Option (Option Nat) :=
  findPivotJordanAuxC m d (List.range' d (m.length - d))

/-- Checked back elimination of one row. -/
def backRowC (d i : Nat) (m : Mat) (row : Nat) : Option Mat :=
  (idx m row i).bind fun factor =>
  (List.range' d (rowLen m i - d)).foldlM
    (fun acc col =>
      (idx acc row col).bind fun x =>
      (idx acc d col).bind fun y =>
      some (setEntry acc row col (x - factor * y))) m

/-- Checked processing of one row of the back elimination loop. -/
def backStepC (m : Mat) (d : Nat) : Option Mat :=
  (find_pivot_jordanC m d).bind fun res =>
  match res with
  | none => some m
  | some i => ((List.range d).reverse).foldlM (backRowC d i) m

/-- Checked version of `gauss_jordan_elimination`. -/
def gauss_jordan_eliminationC (m : Mat) : Option Mat :=
  (gauss_eliminationC m .PrepareReduce).bind fun m1 =>
  let nrows := m1.length
  ((List.range' 1 (nrows - 1)).reverse).foldlM backStepC m1

/-- Counterexample to C5 as stated: on the empty matrix, both modes of the
checked `gauss_elimination` and the checked `gauss_jordan_elimination` return
normally (`some`) with the matrix unchanged — the loops run zero iterations and
no out-of-bounds access occurs. -/
theorem empty_matrix_no_oob_counterexample :
    gauss_eliminationC [] .JustEchelon = some [] ∧
      gauss_eliminationC [] .PrepareReduce = some [] ∧
      gauss_jordan_eliminationC [] = some [] :=
  ⟨rfl, rfl, rfl⟩

/-- C5 (amended): no validation is performed, but calling either elimination
function on an empty matrix performs no out-of-bounds access and returns the
matrix unchanged: every loop bound is `0`, so the bodies never execute. -/
theorem empty_matrix_unchanged :
    (∀ opt, gauss_eliminationC [] opt = some [] ∧ gauss_elimination [] opt = []) ∧
      gauss_jordan_eliminationC [] = some [] ∧ gauss_jordan_elimination [] = [] :=
  ⟨fun _ => ⟨rfl, rfl⟩, rfl, rfl⟩

/-! ### Correspondence of the checked and total embeddings -/

lemma getEntry_eq_getElem {m : Mat} {r c : Nat} (hr : r < m.length)
    (hc' : c < m[r].length) : getEntry m r c = m[r][c] := by
  unfold getEntry
  rw [List.getD_eq_getElem?_getD m r, List.getElem?_eq_getElem hr]
  show (m[r]).getD c 0 = m[r][c]
  rw [List.getD_eq_getElem?_getD, List.getElem?_eq_getElem hc']
  rfl

lemma idx_eq {m : Mat} {r c : Nat} (hr : r < m.length) (hc : c < rowLen m r) :
    idx m r c = some (getEntry m r c) := by
  unfold idx
  rw [List.getElem?_eq_getElem hr]
  have hc' : c < m[r].length := by
    rw [← rowLen_eq_len hr]
    exact hc
  show m[r][c]? = some (getEntry m r c)
  rw [List.getElem?_eq_getElem hc', getEntry_eq_getElem hr hc']

lemma innerElimC_eq {ncols : Nat} (row i : Nat) (factor : ℚ) (cols : List Nat) :
    ∀ (acc : Mat), row < acc.length → i < acc.length → Rect acc ncols →
      (∀ col ∈ cols, col < ncols) →
      cols.foldlM
        (fun acc col =>
          (idx acc row col).bind fun x =>
          (idx acc i col).bind fun y =>
          some (setEntry acc row col (x - factor * y))) acc
        = some (subRowLoop row i factor cols acc) := by
  induction cols with
  | nil =>
    intro acc _ _ _ _
    rfl
  | cons col cols ih =>
    intro acc hrow hi hrect hcols
    rw [List.foldlM_cons]
    rw [idx_eq hrow (by rw [hrect.rowLen_eq hrow]; exact hcols col (List.mem_cons_self col cols))]
    simp only [Option.bind_eq_bind, Option.some_bind]
    rw [idx_eq hi (by rw [hrect.rowLen_eq hi]; exact hcols col (List.mem_cons_self col cols))]
    simp only [Option.bind_eq_bind, Option.some_bind]
    rw [ih (setEntry acc row col (getEntry acc row col - factor * getEntry acc i col))
      (by rw [length_setEntry]; exact hrow) (by rw [length_setEntry]; exact hi)
      (rect_setEntry hrect _ _ _) (fun y hy => hcols y (List.mem_cons_of_mem _ hy))]
    rfl

lemma innerScaleC_eq {ncols : Nat} (t : Nat) (factor : ℚ) (cols : List Nat) :
    ∀ (acc : Mat), t < acc.length → Rect acc ncols → (∀ col ∈ cols, col < ncols) →
      cols.foldlM
        (fun acc col =>
          (idx acc t col).bind fun x =>
          some (setEntry acc t col (x * factor))) acc
        = some (scaleRowLoop t factor cols acc) := by
  induction cols with
  | nil =>
    intro acc _ _ _
    rfl
  | cons col cols ih =>
    intro acc ht hrect hcols
    rw [List.foldlM_cons]
    rw [idx_eq ht (by rw [hrect.rowLen_eq ht]; exact hcols col (List.mem_cons_self col cols))]
    simp only [Option.bind_eq_bind, Option.some_bind]
    rw [ih (setEntry acc t col (getEntry acc t col * factor))
      (by rw [length_setEntry]; exact ht)
      (rect_setEntry hrect _ _ _) (fun y hy => hcols y (List.mem_cons_of_mem _ hy))]
    rfl

lemma elimRowC_eq {m : Mat} {ncols : Nat} (hrect : Rect m ncols)
    (hlc : m.length ≤ ncols) {c i row : Nat} (hrow : row < m.length)
    (hi : i < m.length) (hc : c < m.length) (hnz : getEntry m i c ≠ 0) :
    elimRowC c i m row = some (elimRow c i m row) := by
  unfold elimRowC
  rw [idx_eq hrow (by rw [hrect.rowLen_eq hrow]; omega)]
  simp only [Option.bind_eq_bind, Option.some_bind]
  rw [idx_eq hi (by rw [hrect.rowLen_eq hi]; omega)]
  simp only [Option.bind_eq_bind, Option.some_bind]
  unfold divC
  rw [if_neg hnz]
  simp only [Option.bind_eq_bind, Option.some_bind]
  rw [innerElimC_eq row i (getEntry m row c / getEntry m i c)
    (List.range' c (rowLen m row - c)) m hrow hi hrect
    (by
      intro col hcol
      rw [List.mem_range'_1] at hcol
      have := hrect.rowLen_eq hrow
      omega)]
  rfl

lemma normalizeRowC_eq {m : Mat} {ncols : Nat} (hrect : Rect m ncols) {c : Nat}
    (hcl : c < m.length) (hnz : getEntry m c c ≠ 0) :
    normalizeRowC c m = some (normalizeRow c m) := by
  unfold normalizeRowC
  rw [idx_eq hcl (lt_rowLen_of_getEntry_ne_zero hnz)]
  simp only [Option.bind_eq_bind, Option.some_bind]
  unfold divC
  rw [if_neg hnz]
  simp only [Option.bind_eq_bind, Option.some_bind]
  rw [innerScaleC_eq c (1 / getEntry m c c) (List.range' c (rowLen m c - c)) m hcl hrect
    (by
      intro col hcol
      rw [List.mem_range'_1] at hcol
      have := hrect.rowLen_eq hcl
      omega)]
  rfl

lemma findPivotAuxC_eq {m : Mat} {ncols d : Nat} (hrect : Rect m ncols)
    (hd : d < ncols) (l : List Nat) (hl : ∀ x ∈ l, x < m.length) :
    findPivotAuxC m d l = some (l.find? (fun i => decide (getEntry m i d ≠ 0))) := by
  induction l with
  | nil => rfl
  | cons x l ih =>
    unfold findPivotAuxC
    have hx : x < m.length := hl x (List.mem_cons_self x l)
    rw [idx_eq hx (by rw [hrect.rowLen_eq hx]; exact hd)]
    simp only [Option.bind_eq_bind, Option.some_bind]
    rw [List.find?_cons]
    by_cases hxz : getEntry m x d ≠ 0
    · rw [if_pos hxz]
      simp [hxz]
    · rw [if_neg hxz]
      rw [ih (fun y hy => hl y (List.mem_cons_of_mem _ hy))]
      simp [hxz]

lemma find_pivotC_eq {m : Mat} {ncols : Nat} (hrect : Rect m ncols)
    (hlc : m.length ≤ ncols) (d : Nat) :
    find_pivotC m d = some (find_pivot m d) := by
  unfold find_pivotC find_pivot
  by_cases hd : d < m.length
  · exact findPivotAuxC_eq hrect (by omega) _
      (fun x hx => by rw [List.mem_range'_1] at hx; omega)
  · rw [show m.length - d = 0 by omega, List.range'_zero]
    rfl

lemma elimBelowC_fold_eq {ncols c i : Nat} (l : List Nat) :
    ∀ (acc : Mat), (∀ x ∈ l, i < x ∧ x < acc.length) → Rect acc ncols →
      acc.length ≤ ncols → c < acc.length → i < acc.length →
      getEntry acc i c ≠ 0 →
      l.foldlM (elimRowC c i) acc = some (l.foldl (elimRow c i) acc) := by
  induction l with
  | nil =>
    intros
    rfl
  | cons x l ih =>
    intro acc hl hrect hlc hc hi hnz
    rw [List.foldlM_cons,
      elimRowC_eq hrect hlc (hl x (List.mem_cons_self x l)).2 hi hc hnz]
    simp only [Option.bind_eq_bind, Option.some_bind]
    have hxi : x ≠ i := by
      have := (hl x (List.mem_cons_self x l)).1
      omega
    rw [ih (elimRow c i acc x)
      (fun y hy => by
        have := (hl y (List.mem_cons_of_mem _ hy))
        rw [length_elimRow]
        exact this)
      (rect_of_rowLen hrect (length_elimRow ..) (fun r => rowLen_elimRow ..))
      (by rw [length_elimRow]; exact hlc)
      (by rw [length_elimRow]; exact hc)
      (by rw [length_elimRow]; exact hi)
      (by
        rw [getEntry_elimRow hxi, if_neg (by omega)]
        exact hnz)]
    rfl

lemma getEntry_swapped_pivot {m : Mat} {c i nrows : Nat}
    (hp : find_pivot m c = some i) :
    getEntry (if c ≠ i then swapRows (elimBelow nrows c i m) i c
      else elimBelow nrows c i m) c c = getEntry m i c := by
  obtain ⟨hci, hil, hnz, hfirst⟩ := find_pivot_eq_some hp
  have f2 : ∀ x, x ≤ i → ∀ y, getEntry (elimBelow nrows c i m) x y = getEntry m x y := by
    intro x hx y
    rw [getEntry_elimBelow, if_neg (by omega)]
  by_cases hcine : c ≠ i
  · rw [if_pos hcine,
      getEntry_swapRows _ (by rw [length_elimBelow]; omega) (by rw [length_elimBelow]; omega),
      if_pos rfl]
    exact f2 i (le_refl i) c
  · rw [if_neg hcine]
    have hic : i = c := by omega
    subst hic
    exact f2 i (le_refl i) i

lemma gaussStepC_none {m : Mat} {c : Nat} (opt : GaussEliminationOption) (nrows : Nat)
    (h : find_pivotC m c = some none) : gaussStepC opt nrows m c = some m := by
  unfold gaussStepC
  rw [h]
  rfl

lemma gaussStepC_eq_of_pivot {m : Mat} {c i : Nat} (opt : GaussEliminationOption)
    (nrows : Nat) (hp : find_pivotC m c = some (some i)) :
    gaussStepC opt nrows m c =
      (elimBelowC nrows c i m).bind fun m1 =>
        match opt with
        | .PrepareReduce => normalizeRowC c (if c ≠ i then swapRows m1 i c else m1)
        | .JustEchelon => some (if c ≠ i then swapRows m1 i c else m1) := by
  unfold gaussStepC
  rw [hp]
  rfl

lemma gaussStepC_eq {m : Mat} {ncols : Nat} (hrect : Rect m ncols)
    (hlc : m.length ≤ ncols) {nrows c : Nat} (hn : nrows = m.length)
    (hc : c < m.length) (opt : GaussEliminationOption) :
    gaussStepC opt nrows m c = some (gaussStep opt nrows m c) := by
  have hpC : find_pivotC m c = some (find_pivot m c) := find_pivotC_eq hrect hlc c
  cases hp : find_pivot m c with
  | none =>
    rw [gaussStepC_none opt nrows (by rw [hpC, hp]), gaussStep_none opt nrows hp]
  | some i =>
    obtain ⟨hci, hil, hnz, hfirst⟩ := find_pivot_eq_some hp
    have hbelow : elimBelowC nrows c i m = some (elimBelow nrows c i m) := by
      unfold elimBelowC elimBelow
      exact elimBelowC_fold_eq _ m
        (fun x hx => by rw [List.mem_range'_1] at hx; omega)
        hrect hlc hc hil hnz
    rw [gaussStepC_eq_of_pivot opt nrows (by rw [hpC, hp]), hbelow]
    simp only [Option.bind_eq_bind, Option.some_bind]
    rw [gaussStep_eq_of_pivot opt nrows hp]
    have hlen1 : (elimBelow nrows c i m).length = m.length := length_elimBelow ..
    have hrect2 : Rect (if c ≠ i then swapRows (elimBelow nrows c i m) i c
        else elimBelow nrows c i m) ncols := by
      have h1 : Rect (elimBelow nrows c i m) ncols :=
        rect_of_rowLen hrect (length_elimBelow ..) (fun r => rowLen_elimBelow ..)
      by_cases hcine : c ≠ i
      · rw [if_pos hcine]
        exact rect_swapRows h1 (by omega) (by omega)
      · rw [if_neg hcine]
        exact h1
    have hlen2 : (if c ≠ i then swapRows (elimBelow nrows c i m) i c
        else elimBelow nrows c i m).length = m.length := by
      by_cases hcine : c ≠ i
      · rw [if_pos hcine, length_swapRows, hlen1]
      · rw [if_neg hcine, hlen1]
    cases opt with
    | JustEchelon => rfl
    | PrepareReduce =>
      show normalizeRowC c (if c ≠ i then swapRows (elimBelow nrows c i m) i c
          else elimBelow nrows c i m) =
        some (normalizeRow c (if c ≠ i then swapRows (elimBelow nrows c i m) i c
          else elimBelow nrows c i m))
      exact normalizeRowC_eq hrect2 (by omega)
        (by rw [getEntry_swapped_pivot hp]; exact hnz)

lemma foldC_eq {ncols : Nat} (opt : GaussEliminationOption) (nrows : Nat)
    (l : List Nat) :
    ∀ (acc : Mat), (∀ x ∈ l, x < acc.length) → Rect acc ncols →
      acc.length ≤ ncols → nrows = acc.length →
      l.foldlM (gaussStepC opt nrows) acc = some (l.foldl (gaussStep opt nrows) acc) := by
  induction l with
  | nil =>
    intros
    rfl
  | cons x l ih =>
    intro acc hl hrect hlc hn
    rw [List.foldlM_cons,
      gaussStepC_eq hrect hlc hn (hl x (List.mem_cons_self x l)) opt]
    simp only [Option.bind_eq_bind, Option.some_bind]
    rw [ih (gaussStep opt nrows acc x)
      (fun y hy => by rw [length_gaussStep]; exact hl y (List.mem_cons_of_mem _ hy))
      (rect_gaussStep hrect opt nrows x)
      (by rw [length_gaussStep]; exact hlc)
      (by rw [length_gaussStep]; exact hn)]
    rfl

/-- C7: on a rectangular matrix with at least as many columns as rows, the
checked run of `gauss_elimination` (with either mode) succeeds and agrees with
the total embedding: every index access is in bounds and every division — the
factor computation `matrix[row][c] / matrix[i][c]` and the normalization
divisor `matrix[c][c]` — has a nonzero divisor, namely the pivot value that
passed the pivot finder's nonzero test. -/
theorem gauss_elimination_divisions_nonzero (m : Mat) (ncols : Nat)
    (hrect : Rect m ncols) (hlc : m.length ≤ ncols) (opt : GaussEliminationOption) :
    gauss_eliminationC m opt = some (gauss_elimination m opt) := by
  unfold gauss_eliminationC gauss_elimination
  exact foldC_eq opt m.length (List.range m.length) m
    (fun x hx => by rw [List.mem_range] at hx; exact hx)
    hrect hlc rfl

/-- Witness for C7 on the library's test fixture. -/
theorem gauss_elimination_divisions_nonzero_witness :
    gauss_eliminationC testMat .PrepareReduce =
      some (gauss_elimination testMat .PrepareReduce) :=
  gauss_elimination_divisions_nonzero testMat 4 (by unfold Rect testMat; decide)
    (by decide) .PrepareReduce

/-! ### Determinant machinery for the full-rank analysis -/

/-- The leading square block of a matrix, as an `n × n` Mathlib matrix. -/
def sqn (n : Nat) (m : Mat) : Matrix (Fin n) (Fin n) ℚ :=
  fun i j => getEntry m i j

/-- A square matrix whose first `c + 1` columns vanish on rows `c..n-1` is
singular: those columns are `c + 1` vectors supported on `c` coordinates. -/
lemma det_zero_of_cols_supported {n : Nat} (c : Nat) (hc : c < n)
    (M : Matrix (Fin n) (Fin n) ℚ)
    (h : ∀ j : Fin n, (j : Nat) ≤ c → ∀ i : Fin n, c ≤ (i : Nat) → M i j = 0) :
    M.det = 0 := by
  rw [Matrix.det_apply]
  apply Finset.sum_eq_zero
  intro σ _
  by_cases hex : ∃ j : Fin n, (j : Nat) ≤ c ∧ c ≤ ((σ j : Fin n) : Nat)
  · obtain ⟨j, hj1, hj2⟩ := hex
    have hprod : (∏ i, M (σ i) i) = 0 :=
      Finset.prod_eq_zero (Finset.mem_univ j) (h j hj1 (σ j) hj2)
    rw [hprod, smul_zero]
  · exfalso
    push_neg at hex
    have hlt : ∀ j : Fin (c + 1), ((σ (Fin.castLE hc j) : Fin n) : Nat) < c := by
      intro j
      exact hex (Fin.castLE hc j) (by simpa using Nat.lt_succ_iff.mp j.isLt)
    have hinj : Function.Injective
        (fun j : Fin (c + 1) => (⟨_, hlt j⟩ : Fin c)) := by
      intro a b hab
      have h1 : ((σ (Fin.castLE hc a) : Fin n) : Nat) = ((σ (Fin.castLE hc b) : Fin n) : Nat) := by
        simpa using congrArg Fin.val hab
      have h2 : Fin.castLE hc a = Fin.castLE hc b := σ.injective (Fin.ext h1)
      have h3 : (a : Nat) = (b : Nat) := by simpa using congrArg Fin.val h2
      exact Fin.ext h3
    have hcard := Fintype.card_le_of_injective _ hinj
    simp only [Fintype.card_fin] at hcard
    omega

lemma sqn_elimRow_eq {n ncols : Nat} {m : Mat} (hrect : Rect m ncols)
    (hnm : m.length = n) (hncols : n ≤ ncols) {c i t : Nat} (ht : t < n) (hi : i < n)
    (hti : t ≠ i) (hzi : ∀ col, col < c → getEntry m i col = 0) :
    sqn n (elimRow c i m t) =
      (sqn n m).updateRow ⟨t, ht⟩
        ((sqn n m) ⟨t, ht⟩ +
          (-(getEntry m t c / getEntry m i c)) • (sqn n m) ⟨i, hi⟩) := by
  ext r j
  show getEntry (elimRow c i m t) (r : Nat) (j : Nat) = _
  rw [getEntry_elimRow hti, Matrix.updateRow_apply]
  by_cases hr : r = ⟨t, ht⟩
  · subst hr
    rw [if_pos rfl]
    have hrl : rowLen m t = ncols := hrect.rowLen_eq (by omega)
    by_cases hcj : c ≤ (j : Nat)
    · rw [if_pos ⟨rfl, by omega, hcj, by rw [hrl]; have := j.isLt; omega⟩]
      show _ = getEntry m t j + (-(getEntry m t c / getEntry m i c)) * getEntry m i j
      ring
    · rw [if_neg (by omega)]
      show getEntry m t j = getEntry m t j + (-(getEntry m t c / getEntry m i c)) * getEntry m i j
      rw [hzi (j : Nat) (by omega)]
      ring
  · have hrne : (r : Nat) ≠ t := fun h => hr (Fin.ext h)
    rw [if_neg (fun hA => hrne hA.1), if_neg hr]
    rfl

lemma det_sqn_elimRow {n ncols : Nat} {m : Mat} (hrect : Rect m ncols)
    (hnm : m.length = n) (hncols : n ≤ ncols) {c i t : Nat} (ht : t < n) (hi : i < n)
    (hti : t ≠ i) (hzi : ∀ col, col < c → getEntry m i col = 0) :
    (sqn n (elimRow c i m t)).det = (sqn n m).det := by
  rw [sqn_elimRow_eq hrect hnm hncols ht hi hti hzi]
  exact Matrix.det_updateRow_add_smul_self _ (Fin.ne_of_val_ne hti) _

lemma det_sqn_elimBelow_fold {n ncols c i : Nat} (hncols : n ≤ ncols) (hi : i < n)
    (l : List Nat) :
    ∀ m : Mat, Rect m ncols → m.length = n → (∀ x ∈ l, i < x ∧ x < n) →
      (∀ col, col < c → getEntry m i col = 0) →
      (sqn n (l.foldl (elimRow c i) m)).det = (sqn n m).det := by
  induction l with
  | nil =>
    intros
    rfl
  | cons t l ih =>
    intro m hrect hnm hl hzi
    have hti : t ≠ i := by
      have := (hl t (List.mem_cons_self t l)).1
      omega
    show (sqn n (l.foldl (elimRow c i) (elimRow c i m t))).det = _
    rw [ih (elimRow c i m t)
      (rect_of_rowLen hrect (length_elimRow ..) (fun r => rowLen_elimRow ..))
      (by rw [length_elimRow]; exact hnm)
      (fun x hx => hl x (List.mem_cons_of_mem _ hx))
      (by
        intro col hcol
        rw [getEntry_elimRow hti, if_neg (by omega)]
        exact hzi col hcol)]
    exact det_sqn_elimRow hrect hnm hncols
      ((hl t (List.mem_cons_self t l)).2) hi hti hzi

lemma det_sqn_elimBelow {n ncols c i nrows : Nat} (hncols : n ≤ ncols) (hi : i < n)
    (hn : nrows = n) {m : Mat} (hrect : Rect m ncols) (hnm : m.length = n)
    (hzi : ∀ col, col < c → getEntry m i col = 0) :
    (sqn n (elimBelow nrows c i m)).det = (sqn n m).det := by
  unfold elimBelow
  exact det_sqn_elimBelow_fold hncols hi _ m hrect hnm
    (fun x hx => by rw [List.mem_range'_1] at hx; omega) hzi

lemma sqn_swapRows_eq {n : Nat} {m : Mat} (hnm : m.length = n) {i c : Nat}
    (hi : i < n) (hc : c < n) :
    sqn n (swapRows m i c) = (sqn n m).submatrix (Equiv.swap ⟨i, hi⟩ ⟨c, hc⟩) id := by
  ext r j
  rw [Matrix.submatrix_apply]
  show getEntry (swapRows m i c) (r : Nat) (j : Nat) =
    getEntry m ((Equiv.swap (⟨i, hi⟩ : Fin n) ⟨c, hc⟩ r : Fin n) : Nat) (j : Nat)
  rw [getEntry_swapRows m (by omega) (by omega)]
  by_cases h1 : (r : Nat) = c
  · rw [if_pos h1]
    have hr : r = ⟨c, hc⟩ := Fin.ext h1
    rw [hr, Equiv.swap_apply_right]
  · rw [if_neg h1]
    by_cases h2 : (r : Nat) = i
    · rw [if_pos h2]
      have hr : r = ⟨i, hi⟩ := Fin.ext h2
      rw [hr, Equiv.swap_apply_left]
    · rw [if_neg h2,
        Equiv.swap_apply_of_ne_of_ne (fun h => h2 (congrArg Fin.val h))
          (fun h => h1 (congrArg Fin.val h))]

lemma det_sqn_swapRows {n : Nat} {m : Mat} (hnm : m.length = n) {i c : Nat}
    (hi : i < n) (hc : c < n) (hic : i ≠ c) :
    (sqn n (swapRows m i c)).det = -(sqn n m).det := by
  rw [sqn_swapRows_eq hnm hi hc, Matrix.det_permute,
    Equiv.Perm.sign_swap (Fin.ne_of_val_ne hic)]
  simp

lemma sqn_normalizeRow_eq {n ncols : Nat} {m : Mat} (hrect : Rect m ncols)
    (hnm : m.length = n) (hncols : n ≤ ncols) {c : Nat} (hc : c < n)
    (hz : ∀ col, col < c → getEntry m c col = 0) :
    sqn n (normalizeRow c m) =
      (sqn n m).updateRow ⟨c, hc⟩ ((1 / getEntry m c c) • (sqn n m) ⟨c, hc⟩) := by
  ext r j
  show getEntry (normalizeRow c m) (r : Nat) (j : Nat) = _
  rw [getEntry_normalizeRow, Matrix.updateRow_apply]
  by_cases hr : r = ⟨c, hc⟩
  · subst hr
    rw [if_pos rfl]
    have hrl : rowLen m c = ncols := hrect.rowLen_eq (by omega)
    by_cases hcj : c ≤ (j : Nat)
    · rw [if_pos ⟨rfl, by omega, hcj, by rw [hrl]; have := j.isLt; omega⟩]
      show getEntry m c j * (1 / getEntry m c c) = 1 / getEntry m c c * getEntry m c j
      ring
    · rw [if_neg (by omega)]
      show getEntry m c j = 1 / getEntry m c c * getEntry m c j
      rw [hz (j : Nat) (by omega)]
      ring
  · have hrne : (r : Nat) ≠ c := fun h => hr (Fin.ext h)
    rw [if_neg (fun hA => hrne hA.1), if_neg hr]
    rfl

lemma det_sqn_normalizeRow {n ncols : Nat} {m : Mat} (hrect : Rect m ncols)
    (hnm : m.length = n) (hncols : n ≤ ncols) {c : Nat} (hc : c < n)
    (hz : ∀ col, col < c → getEntry m c col = 0) :
    (sqn n (normalizeRow c m)).det = (1 / getEntry m c c) * (sqn n m).det := by
  rw [sqn_normalizeRow_eq hrect hnm hncols hc hz, Matrix.det_updateRow_smul,
    Matrix.updateRow_eq_self]

/-! ### The forward pass under full rank -/

/-- Loop invariant of the forward pass: after the columns `0..c-1` have been
processed, each of them carries a unit pivot on the diagonal with zeros below,
and the leading square block is still nonsingular. -/
def ForwardInv (n ncols c : Nat) (m : Mat) : Prop :=
  m.length = n ∧ Rect m ncols ∧
    (∀ j, j < c → getEntry m j j = 1 ∧ ∀ r, j < r → getEntry m r j = 0) ∧
    (sqn n m).det ≠ 0

lemma forwardInv_pivot_found {n ncols c : Nat} (hc : c < n) {m : Mat}
    (hinv : ForwardInv n ncols c m) : ∃ i, find_pivot m c = some i := by
  obtain ⟨hlen, hrect, hdiag, hdet⟩ := hinv
  cases hp : find_pivot m c with
  | some i => exact ⟨i, rfl⟩
  | none =>
    exfalso
    apply hdet
    apply det_zero_of_cols_supported c hc
    intro j hj i hi
    have hin : (i : Nat) < n := i.isLt
    show getEntry m (i : Nat) (j : Nat) = 0
    by_cases hjc : (j : Nat) < c
    · exact (hdiag (j : Nat) hjc).2 (i : Nat) (by omega)
    · have hjc' : (j : Nat) = c := by omega
      rw [hjc']
      exact find_pivot_eq_none_iff.mp hp (i : Nat) (by omega) (by omega)

lemma forwardInv_step {n ncols : Nat} (hncols : n ≤ ncols) {c : Nat} (hc : c < n)
    {m : Mat} (hinv : ForwardInv n ncols c m) :
    ForwardInv n ncols (c + 1) (gaussStep .PrepareReduce n m c) := by
  obtain ⟨i, hp⟩ := forwardInv_pivot_found hc hinv
  obtain ⟨hlen, hrect, hdiag, hdet⟩ := hinv
  obtain ⟨hci, hil, hnz, hfirst⟩ := find_pivot_eq_some hp
  have hn' : n = m.length := hlen.symm
  refine ⟨?_, ?_, ?_, ?_⟩
  · rw [length_gaussStep]
    exact hlen
  · exact rect_gaussStep hrect _ _ _
  · intro j hj
    by_cases hjc : j < c
    · constructor
      · rw [getEntry_gaussStep_above hjc .PrepareReduce n j]
        exact (hdiag j hjc).1
      · intro r hr
        exact gaussStep_preserves_colzero hjc .PrepareReduce hn'
          (fun r' hr' => (hdiag j hjc).2 r' hr') r hr
    · have hjc' : j = c := by omega
      subst hjc'
      constructor
      · exact getEntry_gaussStep_diag_one hn' hp
      · intro r hr
        exact getEntry_gaussStep_below_zero .PrepareReduce hn' hp hr
  · rw [gaussStep_eq_of_pivot .PrepareReduce n hp]
    have hzi : ∀ col, col < c → getEntry m i col = 0 := by
      intro col hcol
      exact (hdiag col hcol).2 i (by omega)
    have hdet1 : (sqn n (elimBelow n c i m)).det = (sqn n m).det :=
      det_sqn_elimBelow hncols (by omega) rfl hrect hlen hzi
    set m1 := elimBelow n c i m with hm1
    have hlen1 : m1.length = n := by
      rw [hm1, length_elimBelow]
      exact hlen
    have hrect1 : Rect m1 ncols :=
      rect_of_rowLen hrect (length_elimBelow ..) (fun r => rowLen_elimBelow ..)
    have hm1entries : ∀ x, x ≤ i → ∀ y, getEntry m1 x y = getEntry m x y := by
      intro x hx y
      rw [hm1, getEntry_elimBelow, if_neg (by omega)]
    set m2 := if c ≠ i then swapRows m1 i c else m1 with hm2
    have hlen2 : m2.length = n := by
      rw [hm2]
      by_cases hcine : c ≠ i
      · rw [if_pos hcine, length_swapRows]
        exact hlen1
      · rw [if_neg hcine]
        exact hlen1
    have hrect2 : Rect m2 ncols := by
      rw [hm2]
      by_cases hcine : c ≠ i
      · rw [if_pos hcine]
        exact rect_swapRows hrect1 (by omega) (by omega)
      · rw [if_neg hcine]
        exact hrect1
    have hdet2 : (sqn n m2).det = (sqn n m1).det ∨ (sqn n m2).det = -(sqn n m1).det := by
      rw [hm2]
      by_cases hcine : c ≠ i
      · right
        rw [if_pos hcine]
        exact det_sqn_swapRows hlen1 (by omega) (by omega) (fun h => hcine h.symm)
      · left
        rw [if_neg hcine]
    have hm2cc : getEntry m2 c c = getEntry m i c := by
      rw [hm2, hm1]
      exact getEntry_swapped_pivot hp
    have hm2row : ∀ col, col < c → getEntry m2 c col = 0 := by
      intro col hcol
      rw [hm2]
      by_cases hcine : c ≠ i
      · rw [if_pos hcine, getEntry_swapRows m1 (by omega) (by omega), if_pos rfl,
          hm1entries i (le_refl i)]
        exact (hdiag col hcol).2 i (by omega)
      · rw [if_neg hcine, hm1entries c (by omega)]
        exact (hdiag col hcol).2 c (by omega)
    have hdet3 : (sqn n (normalizeRow c m2)).det =
        (1 / getEntry m2 c c) * (sqn n m2).det :=
      det_sqn_normalizeRow hrect2 hlen2 hncols hc hm2row
    show (sqn n (normalizeRow c m2)).det ≠ 0
    rw [hdet3]
    apply mul_ne_zero
    · rw [hm2cc]
      exact one_div_ne_zero hnz
    · rcases hdet2 with h | h
      · rw [h, hdet1]
        exact hdet
      · rw [h, hdet1]
        exact neg_ne_zero.mpr hdet

lemma forwardInv_fold {n ncols : Nat} (hncols : n ≤ ncols) (k : Nat) :
    ∀ (c : Nat) (m : Mat), c + k ≤ n → ForwardInv n ncols c m →
      ForwardInv n ncols (c + k)
        ((List.range' c k).foldl (gaussStep .PrepareReduce n) m) := by
  induction k with
  | zero =>
    intro c m _ h
    exact h
  | succ k ih =>
    intro c m hck hinv
    rw [List.range'_succ]
    show ForwardInv n ncols (c + (k + 1))
      ((List.range' (c + 1) k).foldl (gaussStep .PrepareReduce n)
        (gaussStep .PrepareReduce n m c))
    rw [show c + (k + 1) = (c + 1) + k by omega]
    exact ih (c + 1) (gaussStep .PrepareReduce n m c) (by omega)
      (forwardInv_step hncols (by omega) hinv)

lemma forward_full_rank {m : Mat} {ncols : Nat} (hrect : Rect m ncols)
    (hlc : m.length ≤ ncols) (hdet : (sqn m.length m).det ≠ 0) :
    ForwardInv m.length ncols m.length (gauss_elimination m .PrepareReduce) := by
  have h0 : ForwardInv m.length ncols 0 m :=
    ⟨rfl, hrect, fun j hj => absurd hj (by omega), hdet⟩
  have hfold := forwardInv_fold hlc m.length 0 m (by omega) h0
  show ForwardInv m.length ncols m.length
    ((List.range m.length).foldl (gaussStep .PrepareReduce m.length) m)
  rw [List.range_eq_range']
  simpa using hfold

/-! ### The back pass under full rank -/

/-- Loop invariant of the back pass: the block is unit lower-cleared (unit
diagonal, zeros below), and every column right of `d` is already cleared above
its diagonal. -/
def BackInv (n ncols d : Nat) (m : Mat) : Prop :=
  m.length = n ∧ Rect m ncols ∧
    (∀ j, j < n → getEntry m j j = 1) ∧
    (∀ j r, j < n → j < r → getEntry m r j = 0) ∧
    (∀ j r, d < j → j < n → r < j → getEntry m r j = 0)

lemma backInv_step {n ncols : Nat} (hncols : n ≤ ncols) {d : Nat} (hd1 : 1 ≤ d)
    (hdn : d < n) {m : Mat} (hinv : BackInv n ncols d m) :
    BackInv n ncols (d - 1) (backStep m d) := by
  obtain ⟨hlen, hrect, hdiag, hlow, hup⟩ := hinv
  have hdd1 : getEntry m d d = 1 := hdiag d hdn
  have hp : find_pivot_jordan m d = some d :=
    find_pivot_jordan_self (by omega) (by rw [hdd1]; exact one_ne_zero)
  have hstep : backStep m d = ((List.range d).reverse).foldl (backRow d d) m := by
    unfold backStep
    rw [hp]
  rw [hstep]
  have hpt : ∀ r k, getEntry (((List.range d).reverse).foldl (backRow d d) m) r k =
      if r < d ∧ r < m.length ∧ d ≤ k ∧ k < rowLen m d ∧ k < rowLen m r then
        getEntry m r k - getEntry m r d * getEntry m d k
      else getEntry m r k := fun r k => getEntry_backFold d (le_refl d) m r k
  refine ⟨?_, ?_, ?_, ?_, ?_⟩
  · rw [length_foldl_backRow]
    exact hlen
  · exact rect_of_rowLen hrect (length_foldl_backRow ..) (fun r => rowLen_foldl_backRow ..)
  · intro j hj
    rw [hpt, if_neg (by omega)]
    exact hdiag j hj
  · intro j r hj hjr
    rw [hpt, if_neg (by omega)]
    exact hlow j r hj hjr
  · intro j r hdj hj hrj
    rw [hpt]
    by_cases hcase : r < d ∧ r < m.length ∧ d ≤ j ∧ j < rowLen m d ∧ j < rowLen m r
    · rw [if_pos hcase]
      by_cases hjd : j = d
      · subst hjd
        rw [hdd1, mul_one]
        exact sub_self _
      · have h1 : getEntry m d j = 0 := hup j d (by omega) hj (by omega)
        have h2 : getEntry m r j = 0 := hup j r (by omega) hj (by omega)
        rw [h1, h2, mul_zero, sub_zero]
    · rw [if_neg hcase]
      by_cases hjd : j = d
      · exfalso
        apply hcase
        subst hjd
        have e1 : rowLen m j = ncols := hrect.rowLen_eq (by omega)
        have e2 : rowLen m r = ncols := hrect.rowLen_eq (by omega)
        exact ⟨by omega, by omega, le_refl j, by omega, by omega⟩
      · exact hup j r (by omega) hj hrj

lemma backInv_fold {n ncols : Nat} (hncols : n ≤ ncols) (k : Nat) :
    ∀ m : Mat, k < n → BackInv n ncols k m →
      BackInv n ncols 0 (((List.range' 1 k).reverse).foldl backStep m) := by
  induction k with
  | zero =>
    intro m _ h
    exact h
  | succ k ih =>
    intro m hk hinv
    have hrev : (List.range' 1 (k + 1)).reverse = (k + 1) :: (List.range' 1 k).reverse := by
      rw [List.range'_1_concat, List.reverse_append, show (1 : Nat) + k = k + 1 by omega]
      rfl
    rw [hrev]
    show BackInv n ncols 0
      (((List.range' 1 k).reverse).foldl backStep (backStep m (k + 1)))
    exact ih (backStep m (k + 1)) (by omega)
      (backInv_step hncols (by omega) (by omega) hinv)

/-- After the full Gauss-Jordan run on a matrix whose leading square block is
nonsingular, that block is exactly the identity. -/
lemma gj_block_identity {m : Mat} {ncols : Nat} (hrect : Rect m ncols)
    (hlc : m.length ≤ ncols) (hdet : (sqn m.length m).det ≠ 0) :
    ∀ r k, r < m.length → k < m.length →
      getEntry (gauss_jordan_elimination m) r k = if r = k then 1 else 0 := by
  intro r k hr hk
  have hfwd := forward_full_rank hrect hlc hdet
  obtain ⟨hflen, hfrect, hfdiag, _⟩ := hfwd
  have hback0 : BackInv m.length ncols (m.length - 1)
      (gauss_elimination m .PrepareReduce) := by
    refine ⟨hflen, hfrect, ?_, ?_, ?_⟩
    · intro j hj
      exact (hfdiag j hj).1
    · intro j r' hj hjr
      exact (hfdiag j hj).2 r' hjr
    · intro j r' hdj hj hrj
      omega
  have hgj : gauss_jordan_elimination m =
      ((List.range' 1 (m.length - 1)).reverse).foldl backStep
        (gauss_elimination m .PrepareReduce) := by
    show ((List.range' 1 ((gauss_elimination m .PrepareReduce).length - 1)).reverse).foldl
      backStep (gauss_elimination m .PrepareReduce) = _
    rw [hflen]
  rw [hgj]
  have hfin := backInv_fold hlc (m.length - 1) (gauss_elimination m .PrepareReduce)
    (by omega) hback0
  obtain ⟨_, _, hdiag, hlow, hup⟩ := hfin
  by_cases hrk : r = k
  · subst hrk
    rw [if_pos rfl]
    exact hdiag r hr
  · rw [if_neg hrk]
    rcases Nat.lt_or_ge r k with h | h
    · exact hup k r (by omega) hk h
    · exact hlow k r hk (by omega)

/-! ### Claim theorems: full-rank Gauss-Jordan -/

/-- C1: for every rectangular matrix with at least as many columns as rows
whose leading square block is nonsingular, after `gauss_jordan_elimination`
the square block is the identity: every pivot column holds exactly one nonzero
entry, equal to one, in its own pivot row. -/
theorem gauss_jordan_rref (m : Mat) (ncols : Nat) (hrect : Rect m ncols)
    (hlc : m.length ≤ ncols) (hdet : (sqn m.length m).det ≠ 0)
    (r c : Nat) (hr : r < m.length) (hc : c < m.length) :
    getEntry (gauss_jordan_elimination m) r c = if r = c then 1 else 0 :=
  gj_block_identity hrect hlc hdet r c hr hc

/-- Witness for C1 on the library's test fixture (off-diagonal entry). -/
theorem gauss_jordan_rref_witness :
    getEntry (gauss_jordan_elimination testMat) 0 1 = if 0 = 1 then 1 else 0 :=
  gauss_jordan_rref testMat 4 (by unfold Rect testMat; decide) (by decide)
    (by with_unfolding_all decide) 0 1 (by decide) (by decide)

/-! ### Fixed points of Gauss-Jordan elimination -/

lemma foldl_fixed {f : Mat → Nat → Mat} {m : Mat} :
    ∀ l : List Nat, (∀ x ∈ l, f m x = m) → l.foldl f m = m := by
  intro l
  induction l with
  | nil =>
    intro _
    rfl
  | cons x l ih =>
    intro h
    show l.foldl f (f m x) = m
    rw [h x (List.mem_cons_self x l)]
    exact ih (fun y hy => h y (List.mem_cons_of_mem _ hy))

lemma gaussStep_fixed {m : Mat} (hid : ∀ r k, r < m.length → k < m.length →
    getEntry m r k = if r = k then 1 else 0) {c : Nat} (hc : c < m.length) :
    gaussStep .PrepareReduce m.length m c = m := by
  have hcc : getEntry m c c = 1 := by
    rw [hid c c hc hc, if_pos rfl]
  have hp : find_pivot m c = some c := find_pivot_self (by rw [hcc]; exact one_ne_zero)
  rw [gaussStep_eq_of_pivot .PrepareReduce m.length hp]
  have helim : elimBelow m.length c c m = m := by
    apply mat_ext (length_elimBelow ..) (fun r hr => rowLen_elimBelow ..)
    intro r k hr hk
    rw [length_elimBelow] at hr
    rw [rowLen_elimBelow] at hk
    rw [getEntry_elimBelow]
    by_cases hcase : c + 1 ≤ r ∧ r < m.length ∧ r < m.length ∧ c ≤ k ∧ k < rowLen m r
    · rw [if_pos hcase]
      have hrc : getEntry m r c = 0 := by
        rw [hid r c (by omega) hc, if_neg (by omega)]
      rw [hrc, zero_div, zero_mul, sub_zero]
    · rw [if_neg hcase]
  rw [helim, if_neg (show ¬c ≠ c by simp)]
  show normalizeRow c m = m
  apply mat_ext (length_normalizeRow ..) (fun r hr => rowLen_normalizeRow ..)
  intro r k hr hk
  rw [length_normalizeRow] at hr
  rw [rowLen_normalizeRow] at hk
  rw [getEntry_normalizeRow]
  by_cases hcase : r = c ∧ c < m.length ∧ c ≤ k ∧ k < rowLen m c
  · rw [if_pos hcase, hcc, hcase.1]
    norm_num
  · rw [if_neg hcase]

lemma backStep_fixed {m : Mat} (hid : ∀ r k, r < m.length → k < m.length →
    getEntry m r k = if r = k then 1 else 0) {d : Nat} (hd : d < m.length) :
    backStep m d = m := by
  have hdd : getEntry m d d = 1 := by
    rw [hid d d hd hd, if_pos rfl]
  have hp : find_pivot_jordan m d = some d :=
    find_pivot_jordan_self hd (by rw [hdd]; exact one_ne_zero)
  unfold backStep
  rw [hp]
  apply foldl_fixed
  intro t ht
  rw [List.mem_reverse, List.mem_range] at ht
  apply mat_ext (length_backRow ..) (fun r hr => rowLen_backRow ..)
  intro r k hr hk
  rw [length_backRow] at hr
  rw [rowLen_backRow] at hk
  rw [getEntry_backRow (show t ≠ d by omega)]
  by_cases hcase : r = t ∧ t < m.length ∧ d ≤ k ∧ k < rowLen m d ∧ k < rowLen m t
  · rw [if_pos hcase]
    have htd : getEntry m t d = 0 := by
      rw [hid t d (by omega) hd, if_neg (by omega)]
    rw [htd, zero_mul, sub_zero, hcase.1]
  · rw [if_neg hcase]

lemma gj_fixed {m : Mat} (hid : ∀ r k, r < m.length → k < m.length →
    getEntry m r k = if r = k then 1 else 0) :
    gauss_jordan_elimination m = m := by
  have hge : gauss_elimination m .PrepareReduce = m := by
    show (List.range m.length).foldl (gaussStep .PrepareReduce m.length) m = m
    apply foldl_fixed
    intro x hx
    rw [List.mem_range] at hx
    exact gaussStep_fixed hid hx
  show ((List.range' 1 ((gauss_elimination m .PrepareReduce).length - 1)).reverse).foldl
    backStep (gauss_elimination m .PrepareReduce) = m
  rw [hge]
  apply foldl_fixed
  intro d hd
  rw [List.mem_reverse, List.mem_range'_1] at hd
  exact backStep_fixed hid (by omega)

/-- Counterexample to C6 as stated: a rank-deficient square matrix on which
`gauss_jordan_elimination` is not idempotent — the back pass uses the
non-normalized pivot `2` of row 1 and flips the sign of the entry above it on
each run. -/
theorem gauss_jordan_not_idempotent :
    gauss_jordan_elimination (gauss_jordan_elimination [[1, 0, 5], [0, 0, 2], [0, 0, 0]]) ≠
      gauss_jordan_elimination [[1, 0, 5], [0, 0, 2], [0, 0, 0]] := by
  with_unfolding_all decide

/-- C6 (amended): Gauss-Jordan reduction is idempotent on every rectangular
matrix (with at least as many columns as rows) whose leading square block is
nonsingular; on rank-deficient inputs idempotence can fail. -/
theorem gauss_jordan_idempotent_full_rank (m : Mat) (ncols : Nat)
    (hrect : Rect m ncols) (hlc : m.length ≤ ncols)
    (hdet : (sqn m.length m).det ≠ 0) :
    gauss_jordan_elimination (gauss_jordan_elimination m) =
      gauss_jordan_elimination m := by
  apply gj_fixed
  intro r k hr hk
  rw [length_gauss_jordan_elimination m] at hr hk
  exact gj_block_identity hrect hlc hdet r k hr hk

/-- Witness for the amended C6 on the library's test fixture. -/
theorem gauss_jordan_idempotent_full_rank_witness :
    gauss_jordan_elimination (gauss_jordan_elimination testMat) =
      gauss_jordan_elimination testMat :=
  gauss_jordan_idempotent_full_rank testMat 4 (by unfold Rect testMat; decide)
    (by decide) (by with_unfolding_all decide)
